import Mathlib

/-!
# Heap storage engine (`heap_storage.cpp`)

A shallow embedding of the slotted page, the heap file and the heap table of
`heap_storage.cpp`, and theorems about them.

Conventions of the embedding:

* `u16` values are natural numbers reduced `% 65536` wherever the C++ converts
  to `u16`; `unsigned` values are reduced `% 4294967296`.
* A block is a 4096-byte buffer, represented by a function from offsets to
  bytes. Every access checks that it stays inside `0 .. 4095`; an access
  outside the buffer is undefined behaviour in the C++ and is reported here as
  `Err.memoryFault`.
* 16-bit integers are stored little-endian (the byte order of the machines the
  program was written for).
* The C++ exceptions `DbBlockNoRoomError`, `DbRelationError` and
  `std::out_of_range` are the other constructors of `Err`.
* The page object `HeapFile::get_new` returns is built over the local array of
  `get_new` and keeps its address, so it refers to a dead array once `get_new`
  has returned (`StalePage`). A store through that address is undefined
  behaviour and is reported as `Err.memoryFault`: this is what `add` does on
  the new block in `HeapTable::append`. The only load through it is the copy
  of the block that `HeapFile::create` writes back right after the return; it
  is taken to read the bytes the array held at the return, which are the
  bytes `get_new` itself stored under the same block id.
-/

namespace HeapStorage

/-- One byte of a buffer (`char`). -/
abbrev Byte := UInt8

/-- A sequence of bytes. -/
abbrev Bytes := List Byte

/-- Modelled from the spec: the page size `DbBlock::BLOCK_SZ`, declared in
`storage_engine.h`; the spec fixes `P = 4096`. -/
def BLOCK_SZ : Nat := 4096

/-- The ways an operation can end without returning. -/
inductive Err where
  | DbBlockNoRoomError
  | DbRelationError
  | out_of_range
  | memoryFault
  deriving DecidableEq, Repr

/-- The contents of a block buffer, by offset. Offsets `≥ BLOCK_SZ` are never
read or written: every access is guarded. -/
abbrev Block := Nat → Byte

/-- The zero-filled buffer (`memset(block, 0, sizeof(block))`). -/
def zeroBlock : Block := fun _ => 0

/-- The bytes `blk[off], ..., blk[off+len-1]`, without bounds check. -/
def readFrom (blk : Block) (off : Nat) : Nat → Bytes
  | 0 => []
  | len + 1 => blk off :: readFrom blk (off + 1) len

/-- Reading `len` bytes at `off` (the source side of a `memcpy`). -/
def readBytes (blk : Block) (off len : Nat) : Except Err Bytes :=
  if off + len ≤ BLOCK_SZ then .ok (readFrom blk off len) else .error .memoryFault

/-- The buffer after storing `data` at `off`, without bounds check. -/
def writeAt (blk : Block) (off : Nat) (data : Bytes) : Block :=
  fun i => if off ≤ i ∧ i < off + data.length then data.getD (i - off) 0 else blk i

/-- Writing `data` at `off` (the destination side of a `memcpy`). -/
def writeBytes (blk : Block) (off : Nat) (data : Bytes) : Except Err Block :=
  if off + data.length ≤ BLOCK_SZ then .ok (writeAt blk off data) else .error .memoryFault

/-- The two bytes stored by `*(u16 *) p = n`. -/
def u16Bytes (n : Nat) : Bytes := [UInt8.ofNat (n % 256), UInt8.ofNat (n / 256 % 256)]

/-- A `Dbt`: a pointer and a size. `data` is the memory that can be read
through the pointer (from the pointer to the end of its buffer), `size` is the
`get_size()` of the `Dbt`. -/
structure Dbt where
  data : Bytes
  size : Nat

/-- The bytes a `Dbt` denotes: the first `size` bytes behind its pointer. -/
def Dbt.bytes (d : Dbt) : Bytes := d.data.take d.size

/-- A `Dbt` owning exactly the given bytes. -/
def Dbt.ofBytes (bs : Bytes) : Dbt := ⟨bs, bs.length⟩

/-- A slotted page: the two cached header fields and the block buffer. -/
structure SlottedPage where
  block_id : Nat
  num_records : Nat
  end_free : Nat
  block : Block

namespace SlottedPage

/-- `get_n`: the `u16` stored at `offset`. -/
def get_n (p : SlottedPage) (offset : Nat) : Except Err Nat :=
  if offset + 2 ≤ BLOCK_SZ then
    .ok ((p.block offset).toNat + 256 * (p.block (offset + 1)).toNat)
  else .error .memoryFault

/-- `put_n`: store the `u16` `n` at `offset`. -/
def put_n (p : SlottedPage) (offset n : Nat) : Except Err SlottedPage :=
  if offset + 2 ≤ BLOCK_SZ then
    .ok { p with block := writeAt p.block offset (u16Bytes n) }
  else .error .memoryFault

/-- `put_header`: store size and offset for the given id; for id zero, store
the block header. The offsets `4*id` and `4*id+2` are passed as `u16`. -/
def put_header (p : SlottedPage) (id size loc : Nat) : Except Err SlottedPage :=
  let size := if id = 0 then p.num_records else size
  let loc := if id = 0 then p.end_free else loc
  match p.put_n ((4 * id) % 65536) size with
  | .error e => .error e
  | .ok p1 => p1.put_n ((4 * id + 2) % 65536) loc

/-- `get_header`: the `(size, loc)` stored in the slot of `id`. -/
def get_header (p : SlottedPage) (id : Nat) : Except Err (Nat × Nat) :=
  match p.get_n ((4 * id) % 65536) with
  | .error e => .error e
  | .ok size =>
    match p.get_n ((4 * id + 2) % 65536) with
    | .error e => .error e
    | .ok loc => .ok (size, loc)

/-- The constructor with `is_new = true`. -/
def mkNew (block : Block) (block_id : Nat) : Except Err SlottedPage :=
  put_header ⟨block_id, 0, BLOCK_SZ - 1, block⟩ 0 0 0

/-- The constructor with `is_new = false`: the header is read from the block. -/
def mkExisting (block : Block) (block_id : Nat) : Except Err SlottedPage :=
  match get_header ⟨block_id, 0, 0, block⟩ 0 with
  | .error e => .error e
  | .ok (n, ef) => .ok ⟨block_id, n, ef, block⟩

/-- `has_room`: `u16 spaceInBlock = end_free - (num_records + 1) * 4;
return size <= spaceInBlock;` with `size` a `u16`. -/
def has_room (p : SlottedPage) (size : Nat) : Bool :=
  let spaceInBlock := (((p.end_free : Int) - ((p.num_records : Int) + 1) * 4) % 65536).toNat
  decide (size ≤ spaceInBlock)

/-- `add`: add a new record and return its id. The size of the data is
converted to `u16` both in the call of `has_room` and for the copy. -/
def add (p : SlottedPage) (data : Bytes) : Except Err (SlottedPage × Nat) :=
  if p.has_room (data.length % 65536) then
    let id := (p.num_records + 1) % 65536
    let size := data.length % 65536
    let end_free := (p.end_free + 65536 - size) % 65536
    let loc := (end_free + 1) % 65536
    let p1 : SlottedPage := { p with num_records := id, end_free := end_free }
    match p1.put_header 0 0 0 with
    | .error e => .error e
    | .ok p2 =>
      match p2.put_header id size loc with
      | .error e => .error e
      | .ok p3 =>
        match writeBytes p3.block loc (data.take size) with
        | .error e => .error e
        | .ok blk => .ok ({ p3 with block := blk }, id)
  else .error .DbBlockNoRoomError

/-- `get`: `nullptr` when the slot holds `loc == 0`, otherwise a `Dbt` of
`size` bytes pointing at `loc` inside the block. -/
def get (p : SlottedPage) (record_id : Nat) : Except Err (Option Dbt) :=
  match p.get_header record_id with
  | .error e => .error e
  | .ok (size, loc) =>
    if loc = 0 then .ok none
    else .ok (some ⟨readFrom p.block loc (BLOCK_SZ - loc), size⟩)

/-- The loop of `ids`, over the ids `id, id+1, ..., id+k-1`. -/
def idsFrom (p : SlottedPage) (id : Nat) : Nat → Except Err (List Nat)
  | 0 => .ok []
  | k + 1 =>
    match p.get_header id with
    | .error e => .error e
    | .ok (_, loc) =>
      match idsFrom p (id + 1) k with
      | .error e => .error e
      | .ok rest => .ok (if loc ≠ 0 then id :: rest else rest)

/-- `ids`: the ids `1 .. num_records` whose slot has `loc != 0`. -/
def ids (p : SlottedPage) : Except Err (List Nat) := idsFrom p 1 p.num_records

/-- The header fix-up loop of `slide` over the list of live ids. -/
def slideHeaders (start shift_range : Nat) : SlottedPage → List Nat → Except Err SlottedPage
  | p, [] => .ok p
  | p, record_id :: rest =>
    match p.get_header record_id with
    | .error e => .error e
    | .ok (size, loc) =>
      if loc ≤ start then
        match p.put_header record_id size ((loc + shift_range) % 65536) with
        | .error e => .error e
        | .ok p1 => slideHeaders start shift_range p1 rest
      else slideHeaders start shift_range p rest

/-- `slide`: `shift_range` is a `u16`, the number of bytes copied is
`unsigned size = (start - end_free + 1)`. -/
def slide (p : SlottedPage) (start end_ : Nat) : Except Err SlottedPage :=
  let shift_range := (end_ + 65536 - start) % 65536
  if shift_range > 0 then
    let start_point := (p.end_free + 1) % 65536
    let destination := (p.end_free + 1 + shift_range) % 65536
    let size := (start + 4294967296 - p.end_free + 1) % 4294967296
    match readBytes p.block start_point size with
    | .error e => .error e
    | .ok payload =>
      match writeBytes p.block destination payload with
      | .error e => .error e
      | .ok blk =>
        let p1 : SlottedPage := { p with block := blk }
        match p1.ids with
        | .error e => .error e
        | .ok rIDList =>
          match slideHeaders start shift_range p1 rIDList with
          | .error e => .error e
          | .ok p2 =>
            put_header { p2 with end_free := (p2.end_free + shift_range) % 65536 } 0 0 0
  else .ok p

/-- `put`: replace the record `record_id` by `data`. -/
def put (p : SlottedPage) (record_id : Nat) (data : Bytes) : Except Err SlottedPage :=
  match p.get_header record_id with
  | .error e => .error e
  | .ok (size, loc) =>
    let new_size := data.length % 65536
    let moved : Except Err SlottedPage :=
      if new_size > size then
        let extra_size := (new_size - size) % 65536
        if !p.has_room extra_size then .error .DbBlockNoRoomError
        else
          match p.slide loc ((loc + 65536 - extra_size) % 65536) with
          | .error e => .error e
          | .ok p1 =>
            match writeBytes p1.block ((loc + 65536 - extra_size) % 65536) (data.take new_size) with
            | .error e => .error e
            | .ok blk => .ok { p1 with block := blk }
      else
        match writeBytes p.block loc (data.take new_size) with
        | .error e => .error e
        | .ok blk =>
          slide { p with block := blk } ((loc + new_size) % 65536) ((loc + size) % 65536)
    match moved with
    | .error e => .error e
    | .ok p2 =>
      match p2.get_header record_id with
      | .error e => .error e
      | .ok (_, loc2) => p2.put_header record_id new_size loc2

/-- `del`: nothing when the slot holds `loc == 0`; otherwise slide over the
record and store `(0, 0)` in its slot. -/
def del (p : SlottedPage) (record_id : Nat) : Except Err SlottedPage :=
  match p.get_header record_id with
  | .error e => .error e
  | .ok (size, loc) =>
    if loc = 0 then .ok p
    else
      match p.slide loc ((loc + size) % 65536) with
      | .error e => .error e
      | .ok p1 => p1.put_header record_id 0 0

end SlottedPage

/-- Modelled from the spec: the data type of a column (`ColumnAttribute::DataType`,
declared in `storage_engine.h`). `INT` and `TEXT` are the recognised types;
`BOOLEAN` stands for any other type. -/
inductive DataType where
  | INT
  | TEXT
  | BOOLEAN
  deriving DecidableEq, Repr

/-- Modelled from the spec: a `Value` (declared in `storage_engine.h`): a type
tag, the integer field `n` (an `int32_t`) and the string field `s`. -/
structure Value where
  data_type : DataType
  n : Int
  s : Bytes
  deriving DecidableEq

/-- `Value(int32_t n)`. -/
def Value.ofInt (n : Int) : Value := ⟨.INT, n, []⟩

/-- `Value(std::string s)`; the field `n` is given as `0`. -/
def Value.ofText (s : Bytes) : Value := ⟨.TEXT, 0, s⟩

/-- A row: a map from column names to values (`std::map<Identifier, Value>`). -/
abbrev ValueDict := String → Option Value

/-- The empty row. -/
def ValueDict.empty : ValueDict := fun _ => none

/-- The row after `(*row)[column_name] = value`. -/
def ValueDict.set (row : ValueDict) (column_name : String) (value : Value) : ValueDict :=
  fun k => if k = column_name then some value else row k

/-- A handle: a block id and a record id. -/
abbrev Handle := Nat × Nat

/-- The page object `HeapFile::get_new` returns. The `Dbt` of a page is a copy
of the `Dbt` given to its constructor, and `get_new` constructs the page over
its local array `block`; so the buffer of this page is an array that is dead
once `get_new` has returned. `page` holds the fields cached in the object and
the bytes the array held at the return. -/
structure StalePage where
  page : SlottedPage

namespace StalePage

/-- `get_block_id()`: a field of the object. -/
def block_id (q : StalePage) : Nat := q.page.block_id

/-- The cached field `num_records`. -/
def num_records (q : StalePage) : Nat := q.page.num_records

/-- The cached field `end_free`. -/
def end_free (q : StalePage) : Nat := q.page.end_free

/-- `ids()`: the loop reads the slots `1 .. num_records` through the dead
array (undefined behaviour); without records it reads nothing. -/
def ids (q : StalePage) : Except Err (List Nat) :=
  if q.page.num_records = 0 then .ok [] else .error .memoryFault

/-- `add` through the page `get_new` returned. `has_room` compares cached
fields only; when it accepts the size, `put_header()` stores the new header
through the dead array: undefined behaviour, no result. -/
def add (q : StalePage) (data : Bytes) : Except Err (StalePage × Nat) :=
  if q.page.has_room (data.length % 65536) then .error .memoryFault
  else .error .DbBlockNoRoomError

end StalePage

/-- A heap file: the id of the last block and the record store, a map from
block ids to 4096-byte blocks. -/
structure HeapFile where
  last : Nat
  db : Nat → Option Block

namespace HeapFile

/-- `put`: write the block of the page back under its block id. -/
def put (f : HeapFile) (page : SlottedPage) : HeapFile :=
  { f with db := fun k => if k = page.block_id then some page.block else f.db k }

/-- `get_new`: a zero-filled local array `block`, the page of block `++last`
constructed over it (`is_new = true`, which writes the header of an empty page
into the array), and the array stored under the new block id. The `db.get`
that follows redirects only the local `Dbt data`: the page returned still
points at `block`, which is dead after the return. -/
def get_new (f : HeapFile) : Except Err (HeapFile × StalePage) :=
  let last := (f.last + 1) % 4294967296
  match SlottedPage.mkNew zeroBlock last with
  | .error e => .error e
  | .ok page => .ok (put { f with last := last } page, ⟨page⟩)

/-- `put` of the page `get_new` returned, as `create` calls it right after the
return: `BLOCK_SZ` bytes are copied from the dead array of `get_new` to the
store, under the block id of the page. This load is undefined behaviour in
the C++ as well; the bytes read are taken to be those the array held when
`get_new` returned, which `get_new` has already stored under the same id, so
the store keeps the block `get_new` wrote. -/
def putStale (f : HeapFile) (q : StalePage) : HeapFile := f.put q.page

/-- `get`: the page stored under `block_id`. A missing block leaves the
caller with an uninitialised buffer: `memoryFault`. -/
def get (f : HeapFile) (block_id : Nat) : Except Err SlottedPage :=
  match f.db block_id with
  | none => .error .memoryFault
  | some blk => SlottedPage.mkExisting blk block_id

/-- `create`: a new, empty record store, then block 1 allocated by `get_new`
and written back through the page `get_new` returned. -/
def create : Except Err HeapFile :=
  match get_new ⟨0, fun _ => none⟩ with
  | .error e => .error e
  | .ok (f, block) => .ok (f.putStale block)

/-- `block_ids`: the ids `1 .. last`. -/
def block_ids (f : HeapFile) : List Nat := List.range' 1 f.last

/-- `get_last_block_id`. -/
def get_last_block_id (f : HeapFile) : Nat := f.last

end HeapFile

/-- A heap table: the declared columns and the heap file. -/
structure HeapTable where
  column_names : List String
  column_attributes : List DataType
  file : HeapFile

/-- The four bytes of a `u32`, little-endian. -/
def u32Bytes (u : Nat) : Bytes :=
  [UInt8.ofNat (u % 256), UInt8.ofNat (u / 256 % 256),
   UInt8.ofNat (u / 65536 % 256), UInt8.ofNat (u / 16777216 % 256)]

/-- The four bytes stored by `*(int32_t *) p = n`. -/
def int32Bytes (n : Int) : Bytes := u32Bytes (n % 4294967296).toNat

/-- The `int32_t` value of a `u32`. -/
def int32OfU32 (u : Nat) : Int := if u < 2147483648 then (u : Int) else (u : Int) - 4294967296

namespace HeapTable

/-- The loop of `marshal`: `bytes` holds what has been written so far, so the
write offset is `bytes.length`; the buffer has `BLOCK_SZ` bytes. -/
def marshalFrom (row : ValueDict) (column_attributes : List DataType) :
    List String → Nat → Bytes → Except Err Bytes
  | [], _, bytes => .ok bytes
  | column_name :: rest, col_num, bytes =>
    match column_attributes.get? col_num with
    | none => .error .memoryFault
    | some ca =>
      match row column_name with
      | none => .error .memoryFault
      | some value =>
        match ca with
        | .INT =>
          if bytes.length + 4 ≤ BLOCK_SZ then
            marshalFrom row column_attributes rest (col_num + 1) (bytes ++ int32Bytes value.n)
          else .error .memoryFault
        | .TEXT =>
          let size := value.s.length % 4294967296
          if bytes.length + 2 + size ≤ BLOCK_SZ then
            marshalFrom row column_attributes rest (col_num + 1)
              (bytes ++ u16Bytes (size % 65536) ++ value.s.take size)
          else .error .memoryFault
        | _ => .error .DbRelationError

/-- `marshal`: the bytes of a row, in a `Dbt` of exactly that size. -/
def marshal (t : HeapTable) (row : ValueDict) : Except Err Dbt :=
  match marshalFrom row t.column_attributes t.column_names 0 [] with
  | .error e => .error e
  | .ok bytes => .ok (Dbt.ofBytes bytes)

/-- The loop of `unmarshal`. `value` is the variable declared before the loop,
so each stored value keeps the field of the other type from earlier columns.
A text is read into a `BLOCK_SZ` buffer, terminated by a zero byte and turned
into a string up to the first zero byte. -/
def unmarshalFrom (column_attributes : List DataType) (bytes : Bytes) :
    List String → Nat → Nat → Value → ValueDict → Except Err ValueDict
  | [], _, _, _, row => .ok row
  | column_name :: rest, col_num, offset, value, row =>
    match column_attributes.get? col_num with
    | none => .error .memoryFault
    | some ca =>
      match ca with
      | .INT =>
        if offset + 4 ≤ bytes.length then
          let u := (bytes.getD offset 0).toNat + 256 * (bytes.getD (offset + 1) 0).toNat
            + 65536 * (bytes.getD (offset + 2) 0).toNat
            + 16777216 * (bytes.getD (offset + 3) 0).toNat
          let value : Value := { value with data_type := ca, n := int32OfU32 u }
          unmarshalFrom column_attributes bytes rest (col_num + 1) (offset + 4) value
            (row.set column_name value)
        else .error .memoryFault
      | .TEXT =>
        if offset + 2 ≤ bytes.length then
          let size := (bytes.getD offset 0).toNat + 256 * (bytes.getD (offset + 1) 0).toNat
          if offset + 2 + size ≤ bytes.length ∧ size < BLOCK_SZ then
            let buffer := (bytes.drop (offset + 2)).take size
            let value : Value :=
              { value with data_type := ca, s := buffer.takeWhile (fun b => b != 0) }
            unmarshalFrom column_attributes bytes rest (col_num + 1) (offset + 2 + size) value
              (row.set column_name value)
          else .error .memoryFault
        else .error .memoryFault
      | _ => .error .DbRelationError

/-- `unmarshal`: the row stored behind a `Dbt`; a null pointer is dereferenced. -/
def unmarshal (t : HeapTable) (data : Option Dbt) : Except Err ValueDict :=
  match data with
  | none => .error .memoryFault
  | some d => unmarshalFrom t.column_attributes d.data t.column_names 0 0 ⟨.INT, 0, []⟩ ValueDict.empty

/-- The loop of `validate`. -/
def validateFrom (row : ValueDict) : List String → ValueDict → Except Err ValueDict
  | [], whole => .ok whole
  | column_name :: rest, whole =>
    match row column_name with
    | none => .error .DbRelationError
    | some value => validateFrom row rest (whole.set column_name value)

/-- `validate`: the row restricted to the declared columns. -/
def validate (t : HeapTable) (row : ValueDict) : Except Err ValueDict :=
  validateFrom row t.column_names ValueDict.empty

/-- `create`: a table over a newly created heap file. -/
def create (column_names : List String) (column_attributes : List DataType) :
    Except Err HeapTable :=
  match HeapFile.create with
  | .error e => .error e
  | .ok f => .ok ⟨column_names, column_attributes, f⟩

/-- `append`: add the marshalled row to the last block; when that block has no
room, allocate a new block with `get_new` and add the row through the page
`get_new` returned. -/
def append (t : HeapTable) (row : ValueDict) : Except Err (HeapTable × Handle) :=
  match t.marshal row with
  | .error e => .error e
  | .ok data =>
    match t.file.get t.file.get_last_block_id with
    | .error e => .error e
    | .ok block =>
      match block.add data.bytes with
      | .ok (block1, record_id) =>
        let f := t.file.put block1
        .ok ({ t with file := f }, (f.get_last_block_id, record_id))
      | .error .DbBlockNoRoomError =>
        match t.file.get_new with
        | .error e => .error e
        | .ok (f1, block1) =>
          match block1.add data.bytes with
          | .error e => .error e
          | .ok (block2, record_id) =>
            let f := f1.putStale block2
            .ok ({ t with file := f }, (f.get_last_block_id, record_id))
      | .error e => .error e

/-- `insert`: validate, then append. -/
def insert (t : HeapTable) (row : ValueDict) : Except Err (HeapTable × Handle) :=
  match t.validate row with
  | .error e => .error e
  | .ok whole => t.append whole

/-- `del`: tombstone the record of the handle and write the page back. -/
def del (t : HeapTable) (handle : Handle) : Except Err HeapTable :=
  match t.file.get handle.1 with
  | .error e => .error e
  | .ok target =>
    match target.del handle.2 with
    | .error e => .error e
    | .ok target1 => .ok { t with file := t.file.put target1 }

/-- The outer loop of `select()` over the given block ids. -/
def selectFrom (t : HeapTable) : List Nat → Except Err (List Handle)
  | [] => .ok []
  | bID :: rest =>
    match t.file.get bID with
    | .error e => .error e
    | .ok curr_block =>
      match curr_block.ids with
      | .error e => .error e
      | .ok rIDs =>
        match selectFrom t rest with
        | .error e => .error e
        | .ok hs => .ok (rIDs.map (fun rID => (bID, rID)) ++ hs)

/-- `select()`: the handles of all records of all blocks. -/
def select (t : HeapTable) : Except Err (List Handle) := selectFrom t t.file.block_ids

/-- The inner loop of `select(where)`: `Handle temp(bID, rIDs->at(rID))`. -/
def selectWhereIds (bID : Nat) (rIDs : List Nat) : List Nat → Except Err (List Handle)
  | [] => .ok []
  | rID :: rest =>
    match rIDs.get? rID with
    | none => .error .out_of_range
    | some r =>
      match selectWhereIds bID rIDs rest with
      | .error e => .error e
      | .ok hs => .ok ((bID, r) :: hs)

/-- The outer loop of `select(where)`. -/
def selectWhereFrom (t : HeapTable) : List Nat → Except Err (List Handle)
  | [] => .ok []
  | bID :: rest =>
    match t.file.get bID with
    | .error e => .error e
    | .ok curr_block =>
      match curr_block.ids with
      | .error e => .error e
      | .ok rIDs =>
        match selectWhereIds bID rIDs rIDs with
        | .error e => .error e
        | .ok hs1 =>
          match selectWhereFrom t rest with
          | .error e => .error e
          | .ok hs => .ok (hs1 ++ hs)

/-- `select(where)`: the argument `where` is not used by the code. -/
def selectWhere (t : HeapTable) (_where : ValueDict) : Except Err (List Handle) :=
  selectWhereFrom t t.file.block_ids

/-- The loop of `project` over the requested columns. -/
def projectFrom (curr_row : ValueDict) : List String → ValueDict → Except Err ValueDict
  | [], result => .ok result
  | column_name :: rest, result =>
    match curr_row column_name with
    | none => .error .DbRelationError
    | some value => projectFrom curr_row rest (result.set column_name value)

/-- `project(handle, column_names)`. -/
def projectCols (t : HeapTable) (handle : Handle) (column_names : List String) :
    Except Err ValueDict :=
  match t.file.get handle.1 with
  | .error e => .error e
  | .ok curr_block =>
    match curr_block.get handle.2 with
    | .error e => .error e
    | .ok curr_data =>
      match t.unmarshal curr_data with
      | .error e => .error e
      | .ok curr_row =>
        if column_names.isEmpty then .ok curr_row
        else projectFrom curr_row column_names ValueDict.empty

/-- `project(handle)`: all declared columns. -/
def project (t : HeapTable) (handle : Handle) : Except Err ValueDict :=
  t.projectCols handle t.column_names

end HeapTable

/-! ## Runs of operations -/

deriving instance DecidableEq for Except

/-- One call on a slotted page. -/
inductive Op where
  | add (data : Bytes)
  | put (record_id : Nat) (data : Bytes)
  | del (record_id : Nat)

/-- The page after one call that returns. -/
def step (p : SlottedPage) : Op → Except Err SlottedPage
  | .add data =>
    match p.add data with
    | .error e => .error e
    | .ok (p1, _) => .ok p1
  | .put record_id data => p.put record_id data
  | .del record_id => p.del record_id

/-- The page after a sequence of calls that all return. -/
def run (p : SlottedPage) : List Op → Except Err SlottedPage
  | [] => .ok p
  | o :: os =>
    match step p o with
    | .error e => .error e
    | .ok p1 => run p1 os

/-- The page a sequence of calls leads to from the new page of block 1: the
constructor with `is_new = true` on a zero-filled buffer. -/
def runFresh (ops : List Op) : Except Err SlottedPage :=
  match SlottedPage.mkNew zeroBlock 1 with
  | .error e => .error e
  | .ok p => run p ops

/-- The bytes `get(record_id)` returns: `none` for `nullptr`. -/
def getBytes (p : SlottedPage) (record_id : Nat) : Except Err (Option Bytes) :=
  match p.get record_id with
  | .error e => .error e
  | .ok d => .ok (d.map Dbt.bytes)

/-- Directory and payloads are disjoint: `4*(num_records+1) ≤ end_free+1`. -/
def roomy (p : SlottedPage) : Bool := decide (4 * (p.num_records + 1) ≤ p.end_free + 1)

/-- Successive inserts, with the handles they return. -/
def insertAll (t : HeapTable) : List ValueDict → Except Err (HeapTable × List Handle)
  | [] => .ok (t, [])
  | row :: rows =>
    match t.insert row with
    | .error e => .error e
    | .ok (t1, h) =>
      match insertAll t1 rows with
      | .error e => .error e
      | .ok (t2, hs) => .ok (t2, h :: hs)

/-! ## Rows, layouts and invariants -/

/-- Two values are the same typed value: the same type tag and, for that type,
the same integer (`INT`) or the same string (`TEXT`). The field of the other
type is not compared. -/
def Value.sameAs (v w : Value) : Prop :=
  v.data_type = w.data_type ∧ (v.data_type = .INT → v.n = w.n) ∧
    (v.data_type = .TEXT → v.s = w.s)

/-- Two optional values are both absent, or both present and the same typed value. -/
def sameEntry : Option Value → Option Value → Prop
  | none, none => True
  | some v, some w => v.sameAs w
  | _, _ => False

/-- Two rows are equal as rows of typed values: the same columns, with the
same typed value in each. -/
def ValueDict.agree (r1 r2 : ValueDict) : Prop := ∀ k, sameEntry (r1 k) (r2 k)

/-- A value is of the declared type: `INT` holds a 32-bit signed integer,
`TEXT` a byte string of length below `2^16`. -/
def Value.hasType (v : Value) : DataType → Prop
  | .INT => v.data_type = .INT ∧ -2147483648 ≤ v.n ∧ v.n < 2147483648
  | .TEXT => v.data_type = .TEXT ∧ v.s.length < 65536
  | .BOOLEAN => False

instance (v : Value) (ty : DataType) : Decidable (v.hasType ty) := by
  cases ty <;> unfold Value.hasType <;> infer_instance

/-- Every declared column (names and types in parallel) is present in the row
with a value of the declared type. -/
def ConformsCols (row : ValueDict) : List String → List DataType → Prop
  | [], [] => True
  | c :: cs, ty :: tys => (∃ v, row c = some v ∧ v.hasType ty) ∧ ConformsCols row cs tys
  | _, _ => False

/-- The row has exactly the columns of the schema, with values of the
declared types. -/
def Conforms (t : HeapTable) (row : ValueDict) : Prop :=
  ConformsCols row t.column_names t.column_attributes ∧
    ∀ k, k ∉ t.column_names → row k = none

/-- No text of the row contains a zero byte. -/
def NulFree (row : ValueDict) : Prop :=
  ∀ k v, row k = some v → v.data_type = .TEXT → (0 : Byte) ∉ v.s

/-- The layout of a marshalled row as the spec words it: in declared order,
four bytes for an `INT` column, a `u16` length and the raw bytes for a `TEXT`
column. -/
def layout (row : ValueDict) : List String → List DataType → Bytes
  | c :: cs, ty :: tys =>
    (match row c, ty with
      | some v, .INT => int32Bytes v.n
      | some v, .TEXT => u16Bytes v.s.length ++ v.s
      | _, _ => []) ++ layout row cs tys
  | _, _ => []

/-- The table object as the constructor leaves it: the declared columns and a
heap file without blocks. -/
def HeapTable.new (column_names : List String) (column_attributes : List DataType) : HeapTable :=
  ⟨column_names, column_attributes, ⟨0, fun _ => none⟩⟩

/-- The row `a = 12, b = "Hello!"` of the test in the source. -/
def rowHello : ValueDict := fun k =>
  if k = "a" then some (Value.ofInt 12)
  else if k = "b" then some (Value.ofText [72, 101, 108, 108, 111, 33])
  else none

/-- A row whose text `b` is the three bytes `'a', 0, 'b'`. -/
def rowZeroByte : ValueDict := fun k =>
  if k = "b" then some (Value.ofText [97, 0, 98]) else none

/-- The buffer after `put_n(4*id, size); put_n(4*id + 2, loc)`. -/
def slotBlock (blk : Block) (id size loc : Nat) : Block :=
  writeAt (writeAt blk (4 * id) (u16Bytes size)) (4 * id + 2) (u16Bytes loc)

/-- Directory and payloads are disjoint and inside the block:
`4*(num_records+1) ≤ end_free+1 ≤ 4096`. -/
def inBounds (p : SlottedPage) : Bool :=
  decide (4 * (p.num_records + 1) ≤ p.end_free + 1 ∧ p.end_free < BLOCK_SZ)

/-- The total length of a list of payloads. -/
def totalLen (ds : List Bytes) : Nat := (ds.map List.length).sum

/-- The offset of payload `i` (counted from 0) of the payloads `ds` added in
this order to a new page. -/
def locOf (ds : List Bytes) (i : Nat) : Nat := BLOCK_SZ - totalLen (ds.take (i + 1))

/-- The page holds exactly the payloads `ds`, added in this order: header,
slots, payload bytes, and a zero-filled free region between them. -/
structure Good (p : SlottedPage) (ds : List Bytes) : Prop where
  n_eq : p.num_records = ds.length
  ef_eq : p.end_free + 1 + totalLen ds = BLOCK_SZ
  room : 4 * (p.num_records + 1) ≤ p.end_free + 1
  hdr : p.get_header 0 = .ok (p.num_records, p.end_free)
  slot : ∀ i (h : i < ds.length), p.get_header (i + 1) = .ok (ds[i].length, locOf ds i)
  data : ∀ i (h : i < ds.length),
    ∃ post, readFrom p.block (locOf ds i) (BLOCK_SZ - locOf ds i) = ds[i] ++ post
  free : ∀ j, 4 * (p.num_records + 1) ≤ j → j ≤ p.end_free → p.block j = 0

/-- The page has room for the payload and for the four bytes of its slot. -/
def SlottedPage.addFits (p : SlottedPage) (data : Bytes) : Bool :=
  decide (4 * (p.num_records + 2) + data.length ≤ p.end_free + 1)

/-- The pages reached from a new, zero-filled page by calls of `add` that
return, each on a page with room for the payload and its slot. -/
inductive AddReach : SlottedPage → Prop
  | fresh (block_id : Nat) (p : SlottedPage) :
      SlottedPage.mkNew zeroBlock block_id = .ok p → AddReach p
  | add (p p' : SlottedPage) (data : Bytes) (id : Nat) :
      AddReach p → p.addFits data = true → p.add data = .ok (p', id) → AddReach p'

/-- The page of a run that returns (the empty page of block 0 otherwise). -/
def pageOf (r : Except Err SlottedPage) : SlottedPage :=
  match r with
  | .ok p => p
  | .error _ => ⟨0, 0, 0, zeroBlock⟩

/-- The new page of block 1. -/
def pageNew : SlottedPage := pageOf (runFresh [])

/-- The page of block 1 after `add("AB")`. -/
def pageAB : SlottedPage := pageOf (runFresh [.add [65, 66]])

/-- The handles of the records `1 .. n` of block `b`. -/
def handlesOfPage (b n : Nat) : List Handle := (List.range' 1 n).map (fun r => (b, r))

/-- The handles of all records of the blocks `b, b+1, ...` holding the given payloads. -/
def handlesFrom (b : Nat) : List (List Bytes) → List Handle
  | [] => []
  | ds :: rest => handlesOfPage b ds.length ++ handlesFrom (b + 1) rest

/-- The blocks `1 .. pages.length` of the table hold exactly the given
payloads, block by block. -/
structure TGood (t : HeapTable) (pages : List (List Bytes)) : Prop where
  last_eq : t.file.last = pages.length
  page : ∀ b (h : b < pages.length),
    ∃ p, t.file.get (b + 1) = .ok p ∧ p.block_id = b + 1 ∧ Good p pages[b]

/-- The payload `d` is record `h.2` of block `h.1` in `pages`. -/
def Stored (pages : List (List Bytes)) (h : Handle) (d : Bytes) : Prop :=
  ∃ ds, pages.get? (h.1 - 1) = some ds ∧ ds.get? (h.2 - 1) = some d ∧ 1 ≤ h.1 ∧ 1 ≤ h.2

/-- The table of a `create` that returns (a table without blocks otherwise). -/
def tableOf (r : Except Err HeapTable) : HeapTable :=
  match r with
  | .ok t => t
  | .error _ => HeapTable.new [] []

/-- The table of the test in the source, just created: columns `a : INT`, `b : TEXT`. -/
def tableAB : HeapTable := tableOf (HeapTable.create ["a", "b"] [.INT, .TEXT])

/-- The row `a = -7, b = ""`. -/
def rowEmptyText : ValueDict := fun k =>
  if k = "a" then some (Value.ofInt (-7))
  else if k = "b" then some (Value.ofText [])
  else none

/-! ## Definitions for the layout, allocation and scan claims -/

/-- Every declared column (names and types in parallel) is of type `INT` or
`TEXT` and present in the row, a `TEXT` column with a string shorter than
`2^16` bytes. -/
def PresentCols (row : ValueDict) : List String → List DataType → Prop
  | [], [] => True
  | c :: cs, ty :: tys =>
    (∃ v, row c = some v ∧ (ty = .INT ∨ (ty = .TEXT ∧ v.s.length < 65536))) ∧
      PresentCols row cs tys
  | _, _ => False

/-- The size of a marshalled row as the spec words it: 4 for each `INT`
column, 2 plus the length of the text for each `TEXT` column. -/
def marshalledSize (row : ValueDict) : List String → List DataType → Nat
  | c :: cs, ty :: tys =>
    (match row c, ty with
      | some _, .INT => 4
      | some v, .TEXT => 2 + v.s.length
      | _, _ => 0) + marshalledSize row cs tys
  | _, _ => 0

/-- A row with the one column `b`, a text of 8190 bytes `'x'`. -/
def rowText8190 : ValueDict := fun k =>
  if k = "b" then some (Value.ofText (List.replicate 8190 120)) else none

/-- A row with the one column `b`, a text of 1000 bytes `'x'`. -/
def rowText1000 : ValueDict := fun k =>
  if k = "b" then some (Value.ofText (List.replicate 1000 120)) else none

/-- The row has exactly the column `b`, a `TEXT` of 1000 bytes. -/
def IsText1000 (row : ValueDict) : Prop :=
  (∃ v, row "b" = some v ∧ v.data_type = .TEXT ∧ v.s.length = 1000) ∧
    ∀ k, k ≠ "b" → row k = none

/-- The heap file of a `create` that returns (a file without blocks otherwise). -/
def fileOf (r : Except Err HeapFile) : HeapFile :=
  match r with
  | .ok f => f
  | .error _ => ⟨0, fun _ => none⟩

/-- Every block `1 .. last` of the file of the table is read and its `ids()`
returns. -/
def BlocksReadable (t : HeapTable) : Prop :=
  ∀ b ∈ t.file.block_ids, ∃ p l, t.file.get b = .ok p ∧ p.ids = .ok l

/-- Some block `1 .. last` of the file of the table has a live record. -/
def HasLiveRecord (t : HeapTable) : Prop :=
  ∃ b ∈ t.file.block_ids, ∃ p l, t.file.get b = .ok p ∧ p.ids = .ok l ∧ l ≠ []

/-- The table of the test after the insert of the row `a = 12, b = "Hello!"`. -/
def tableHello : HeapTable :=
  match tableAB.insert rowHello with
  | .ok (t, _) => t
  | .error _ => tableAB

/-- Block 1 of `tableHello`, as read from the file. -/
def pageHello : SlottedPage := pageOf (tableHello.file.get 1)

/-- Record 1 of `pageHello`. -/
def dbtHello : Dbt :=
  match pageHello.get 1 with
  | .ok (some d) => d
  | _ => ⟨[], 0⟩

/-- The row unmarshalled from `dbtHello`. -/
def rowHelloStored : ValueDict :=
  match tableHello.unmarshal (some dbtHello) with
  | .ok r => r
  | .error _ => ValueDict.empty

/-! # Lemmas -/

/-! ## Bytes and integers -/

theorem toNat_ofNat_mod (n : Nat) : (UInt8.ofNat (n % 256)).toNat = n % 256 := by
  show n % 256 % 256 = n % 256
  omega

theorem u16_decode (n : Nat) (h : n < 65536) :
    (UInt8.ofNat (n % 256)).toNat + 256 * (UInt8.ofNat (n / 256 % 256)).toNat = n := by
  rw [toNat_ofNat_mod, toNat_ofNat_mod]
  omega

theorem u32_decode (n : Nat) (h : n < 4294967296) :
    (UInt8.ofNat (n % 256)).toNat + 256 * (UInt8.ofNat (n / 256 % 256)).toNat
      + 65536 * (UInt8.ofNat (n / 65536 % 256)).toNat
      + 16777216 * (UInt8.ofNat (n / 16777216 % 256)).toNat = n := by
  rw [toNat_ofNat_mod, toNat_ofNat_mod, toNat_ofNat_mod, toNat_ofNat_mod]
  omega

theorem int32_roundtrip (n : Int) (h1 : -2147483648 ≤ n) (h2 : n < 2147483648) :
    int32OfU32 (n % 4294967296).toNat = n := by
  unfold int32OfU32
  have h3 : (0 : Int) ≤ n % 4294967296 := Int.emod_nonneg _ (by norm_num)
  have h4 : ((n % 4294967296).toNat : Int) = n % 4294967296 := Int.toNat_of_nonneg h3
  split
  · rename_i h; omega
  · rename_i h; omega

theorem getD_append_at (pre xs : Bytes) (i : Nat) :
    (pre ++ xs).getD (pre.length + i) 0 = xs.getD i 0 := by
  simp [List.getD, List.getElem?_append_right]

theorem takeWhile_nonzero (s : Bytes) (h : (0 : Byte) ∉ s) :
    s.takeWhile (fun b => b != 0) = s := by
  induction s with
  | nil => rfl
  | cons b bs ih =>
    have hb : b ≠ 0 := fun e => h (by simp [e])
    have hbs : (0 : Byte) ∉ bs := fun e => h (by simp [e])
    have hne : (b != 0) = true := by simpa using hb
    rw [List.takeWhile_cons, hne]
    simp [ih hbs]

/-! ## Marshalling -/

theorem get?_of_drop {α : Type} (l : List α) (n : Nat) (x : α) (xs : List α)
    (h : l.drop n = x :: xs) : l.get? n = some x ∧ l.drop (n + 1) = xs := by
  constructor
  · have := List.head?_drop l n
    rw [h] at this
    simpa using this.symm
  · have := List.tail_drop l n
    rw [h] at this
    simpa using this.symm

theorem int32Bytes_length (n : Int) : (int32Bytes n).length = 4 := rfl

theorem u16Bytes_length (n : Nat) : (u16Bytes n).length = 2 := rfl

/-- On a conforming row that fits the buffer, the loop of `marshal` appends
the layout of the remaining columns. -/
theorem marshalFrom_layout (row : ValueDict) (attrs : List DataType) :
    ∀ (cs : List String) (tys : List DataType) (col_num : Nat) (acc : Bytes),
      attrs.drop col_num = tys → ConformsCols row cs tys →
      acc.length + (layout row cs tys).length ≤ BLOCK_SZ →
      HeapTable.marshalFrom row attrs cs col_num acc = .ok (acc ++ layout row cs tys) := by
  intro cs
  induction cs with
  | nil =>
    intro tys col_num acc _ hc _
    cases tys with
    | nil => simp [HeapTable.marshalFrom, layout]
    | cons ty tys => exact absurd hc (by simp [ConformsCols])
  | cons c cs ih =>
    intro tys col_num acc hd hc hfit
    cases tys with
    | nil => exact absurd hc (by simp [ConformsCols])
    | cons ty tys =>
      obtain ⟨⟨v, hv, hty⟩, hrest⟩ := hc
      obtain ⟨hget, hdrop⟩ := get?_of_drop attrs col_num ty tys hd
      cases ty with
      | INT =>
        have hl : layout row (c :: cs) (DataType.INT :: tys)
            = int32Bytes v.n ++ layout row cs tys := by simp [layout, hv]
        rw [hl] at hfit ⊢
        simp only [List.length_append, int32Bytes_length] at hfit
        have h4 : acc.length + 4 ≤ BLOCK_SZ := by omega
        rw [HeapTable.marshalFrom, hget]
        simp only [hv, h4, if_true]
        rw [ih tys (col_num + 1) (acc ++ int32Bytes v.n) hdrop hrest
          (by simp only [List.length_append, int32Bytes_length]; omega)]
        simp
      | TEXT =>
        have hlen : v.s.length < 65536 := hty.2
        have hl : layout row (c :: cs) (DataType.TEXT :: tys)
            = u16Bytes v.s.length ++ v.s ++ layout row cs tys := by simp [layout, hv]
        rw [hl] at hfit ⊢
        simp only [List.length_append, u16Bytes_length] at hfit
        have hm1 : v.s.length % 4294967296 = v.s.length := Nat.mod_eq_of_lt (by omega)
        have hm2 : v.s.length % 65536 = v.s.length := Nat.mod_eq_of_lt hlen
        have h4 : acc.length + 2 + v.s.length ≤ BLOCK_SZ := by omega
        rw [HeapTable.marshalFrom, hget]
        simp only [hv, hm1, hm2, h4, if_true, List.take_length]
        rw [ih tys (col_num + 1) (acc ++ u16Bytes v.s.length ++ v.s) hdrop hrest
          (by simp only [List.length_append, u16Bytes_length]; omega)]
        simp
      | BOOLEAN => exact absurd hty (by simp [Value.hasType])

theorem sameEntry_set_of_rest (r acc : ValueDict) (row : ValueDict) (c : String)
    (cs : List String) (w : Value)
    (hin : ∀ k, k ∈ cs → sameEntry (r k) (row k))
    (hout : ∀ k, k ∉ cs → r k = (acc.set c w) k)
    (hw : sameEntry (some w) (row c)) :
    (∀ k, k ∈ c :: cs → sameEntry (r k) (row k)) ∧ (∀ k, k ∉ c :: cs → r k = acc k) := by
  constructor
  · intro k hk
    by_cases hkc : k ∈ cs
    · exact hin k hkc
    · have hkeq : k = c := by
        rcases List.mem_cons.mp hk with h | h
        · exact h
        · exact absurd h hkc
      rw [hout k hkc, hkeq]
      simpa [ValueDict.set] using hw
  · intro k hk
    have h1 : k ≠ c := fun e => hk (by simp [e])
    have h2 : k ∉ cs := fun e => hk (by simp [e])
    rw [hout k h2]
    simp [ValueDict.set, h1]

/-- On bytes that hold, from `pre.length` on, the layout of a conforming row
without zero bytes in its texts, the loop of `unmarshal` sets every remaining
column to the value of the row and leaves the other columns as they were. -/
theorem unmarshalFrom_layout (row : ValueDict) (attrs : List DataType) (hnul : NulFree row) :
    ∀ (cs : List String) (tys : List DataType) (col_num : Nat) (pre post : Bytes)
      (value : Value) (acc : ValueDict),
      attrs.drop col_num = tys → ConformsCols row cs tys →
      pre.length + (layout row cs tys).length ≤ BLOCK_SZ →
      ∃ r, HeapTable.unmarshalFrom attrs (pre ++ layout row cs tys ++ post) cs col_num
              pre.length value acc = .ok r ∧
        (∀ k, k ∈ cs → sameEntry (r k) (row k)) ∧ (∀ k, k ∉ cs → r k = acc k) := by
  intro cs
  induction cs with
  | nil =>
    intro tys col_num pre post value acc _ _ _
    exact ⟨acc, by simp [HeapTable.unmarshalFrom], by simp, by simp⟩
  | cons c cs ih =>
    intro tys col_num pre post value acc hd hc hfit
    cases tys with
    | nil => exact absurd hc (by simp [ConformsCols])
    | cons ty tys =>
      obtain ⟨⟨v, hv, hty⟩, hrest⟩ := hc
      obtain ⟨hget, hdrop⟩ := get?_of_drop attrs col_num ty tys hd
      cases ty with
      | INT =>
        obtain ⟨htag, hlo, hhi⟩ := hty
        have hl : layout row (c :: cs) (DataType.INT :: tys)
            = int32Bytes v.n ++ layout row cs tys := by simp [layout, hv]
        rw [hl] at hfit ⊢
        simp only [List.length_append, int32Bytes_length] at hfit
        have hbytes : pre ++ (int32Bytes v.n ++ layout row cs tys) ++ post
            = (pre ++ int32Bytes v.n) ++ layout row cs tys ++ post := by simp
        have hnn : (0 : Int) ≤ v.n % 4294967296 := Int.emod_nonneg _ (by norm_num)
        have hlt : (v.n % 4294967296).toNat < 4294967296 := by
          have := Int.emod_lt_of_pos v.n (show (0 : Int) < 4294967296 by norm_num)
          omega
        obtain ⟨r, hr, hin, hout⟩ := ih tys (col_num + 1) (pre ++ int32Bytes v.n) post
          { value with data_type := .INT, n := v.n }
          (acc.set c { value with data_type := .INT, n := v.n }) hdrop hrest
          (by simp only [List.length_append, int32Bytes_length]; omega)
        refine ⟨r, ?_, ?_⟩
        · rw [HeapTable.unmarshalFrom, hget]
          have hlen : pre.length + 4 ≤
              (pre ++ (int32Bytes v.n ++ layout row cs tys) ++ post).length := by
            simp only [List.length_append, int32Bytes_length]; omega
          simp only [hlen, if_true]
          have hdec : ((pre ++ (int32Bytes v.n ++ layout row cs tys) ++ post).getD pre.length 0).toNat
              + 256 * ((pre ++ (int32Bytes v.n ++ layout row cs tys) ++ post).getD (pre.length + 1) 0).toNat
              + 65536 * ((pre ++ (int32Bytes v.n ++ layout row cs tys) ++ post).getD (pre.length + 2) 0).toNat
              + 16777216 * ((pre ++ (int32Bytes v.n ++ layout row cs tys) ++ post).getD (pre.length + 3) 0).toNat
              = (v.n % 4294967296).toNat := by
            have e0 := getD_append_at pre (int32Bytes v.n ++ layout row cs tys ++ post) 0
            have e1 := getD_append_at pre (int32Bytes v.n ++ layout row cs tys ++ post) 1
            have e2 := getD_append_at pre (int32Bytes v.n ++ layout row cs tys ++ post) 2
            have e3 := getD_append_at pre (int32Bytes v.n ++ layout row cs tys ++ post) 3
            simp only [List.append_assoc, Nat.add_zero] at e0 e1 e2 e3 ⊢
            rw [e0, e1, e2, e3]
            simp only [int32Bytes, u32Bytes, List.cons_append, List.getD_cons_zero,
              List.getD_cons_succ, List.nil_append]
            exact u32_decode _ hlt
          rw [hdec, int32_roundtrip v.n hlo hhi, hbytes]
          have hoff : pre.length + 4 = (pre ++ int32Bytes v.n).length := by
            simp [int32Bytes_length]
          rw [hoff]
          exact hr
        · exact sameEntry_set_of_rest r acc row c cs _ hin hout
            (by rw [hv]; exact ⟨htag.symm, fun _ => rfl, fun h => by simp at h⟩)
      | TEXT =>
        obtain ⟨htag, hslen⟩ := hty
        have hl : layout row (c :: cs) (DataType.TEXT :: tys)
            = u16Bytes v.s.length ++ v.s ++ layout row cs tys := by simp [layout, hv]
        rw [hl] at hfit ⊢
        simp only [List.length_append, u16Bytes_length] at hfit
        have hbytes : pre ++ (u16Bytes v.s.length ++ v.s ++ layout row cs tys) ++ post
            = (pre ++ u16Bytes v.s.length ++ v.s) ++ layout row cs tys ++ post := by simp
        obtain ⟨r, hr, hin, hout⟩ := ih tys (col_num + 1) (pre ++ u16Bytes v.s.length ++ v.s)
          post { value with data_type := .TEXT, s := v.s }
          (acc.set c { value with data_type := .TEXT, s := v.s }) hdrop hrest
          (by simp only [List.length_append, u16Bytes_length]; omega)
        refine ⟨r, ?_, ?_⟩
        · rw [HeapTable.unmarshalFrom, hget]
          have hlen : pre.length + 2 ≤
              (pre ++ (u16Bytes v.s.length ++ v.s ++ layout row cs tys) ++ post).length := by
            simp only [List.length_append, u16Bytes_length]; omega
          simp only [hlen, if_true]
          have hdec : ((pre ++ (u16Bytes v.s.length ++ v.s ++ layout row cs tys) ++ post).getD pre.length 0).toNat
              + 256 * ((pre ++ (u16Bytes v.s.length ++ v.s ++ layout row cs tys) ++ post).getD (pre.length + 1) 0).toNat
              = v.s.length := by
            have e0 := getD_append_at pre (u16Bytes v.s.length ++ v.s ++ layout row cs tys ++ post) 0
            have e1 := getD_append_at pre (u16Bytes v.s.length ++ v.s ++ layout row cs tys ++ post) 1
            simp only [List.append_assoc, Nat.add_zero] at e0 e1 ⊢
            rw [e0, e1]
            simp only [u16Bytes, List.cons_append, List.getD_cons_zero,
              List.getD_cons_succ, List.nil_append]
            exact u16_decode _ hslen
          rw [hdec]
          have hlen2 : pre.length + 2 + v.s.length ≤
              (pre ++ (u16Bytes v.s.length ++ v.s ++ layout row cs tys) ++ post).length
              ∧ v.s.length < BLOCK_SZ := by
            constructor
            · simp only [List.length_append, u16Bytes_length]; omega
            · omega
          simp only [hlen2, and_self, if_true]
          have hbuf : List.take v.s.length (List.drop (pre.length + 2)
              (pre ++ (u16Bytes v.s.length ++ v.s ++ layout row cs tys) ++ post)) = v.s := by
            have h2 : pre.length + 2 = (pre ++ u16Bytes v.s.length).length := by
              simp [u16Bytes_length]
            have h3 : pre ++ (u16Bytes v.s.length ++ v.s ++ layout row cs tys) ++ post
                = (pre ++ u16Bytes v.s.length) ++ (v.s ++ (layout row cs tys ++ post)) := by simp
            rw [h2, h3, List.drop_left, List.take_left]
          rw [hbuf, takeWhile_nonzero v.s (hnul c v hv htag), hbytes]
          have hoff : pre.length + 2 + v.s.length = (pre ++ u16Bytes v.s.length ++ v.s).length := by
            simp only [List.length_append, u16Bytes_length]
          rw [hoff]
          exact hr
        · exact sameEntry_set_of_rest r acc row c cs _ hin hout
            (by rw [hv]; exact ⟨htag.symm, fun h => by simp at h, fun _ => rfl⟩)
      | BOOLEAN => exact absurd hty (by simp [Value.hasType])

/-! ## Buffers -/

theorem writeAt_outside (blk : Block) (off : Nat) (data : Bytes) (j : Nat)
    (h : j < off ∨ off + data.length ≤ j) : writeAt blk off data j = blk j := by
  unfold writeAt
  have : ¬ (off ≤ j ∧ j < off + data.length) := by omega
  simp [this]

theorem writeAt_inside (blk : Block) (off : Nat) (data : Bytes) (j : Nat)
    (h1 : off ≤ j) (h2 : j < off + data.length) :
    writeAt blk off data j = data.getD (j - off) 0 := by
  unfold writeAt
  simp [h1, h2]

theorem readFrom_length (blk : Block) : ∀ (len off : Nat), (readFrom blk off len).length = len := by
  intro len
  induction len with
  | zero => intro off; rfl
  | succ n ih => intro off; simp [readFrom, ih]

theorem readFrom_congr (b1 b2 : Block) : ∀ (len off : Nat),
    (∀ j, off ≤ j → j < off + len → b1 j = b2 j) → readFrom b1 off len = readFrom b2 off len := by
  intro len
  induction len with
  | zero => intro off _; rfl
  | succ n ih =>
    intro off h
    simp only [readFrom]
    rw [h off (Nat.le_refl _) (by omega), ih (off + 1) (fun j h1 h2 => h j (by omega) (by omega))]

theorem readFrom_add (blk : Block) : ∀ (m n off : Nat),
    readFrom blk off (m + n) = readFrom blk off m ++ readFrom blk (off + m) n := by
  intro m
  induction m with
  | zero => intro n off; simp [readFrom]
  | succ k ih =>
    intro n off
    have e : k + 1 + n = (k + n) + 1 := by omega
    rw [e]
    simp only [readFrom, List.cons_append]
    rw [ih n (off + 1)]
    have e2 : off + 1 + k = off + (k + 1) := by omega
    rw [e2]

theorem readFrom_writeAt_self (blk : Block) : ∀ (data : Bytes) (off : Nat),
    readFrom (writeAt blk off data) off data.length = data := by
  intro data
  induction data with
  | nil => intro off; rfl
  | cons b bs ih =>
    intro off
    simp only [List.length_cons, readFrom]
    have h0 : writeAt blk off (b :: bs) off = b := by
      rw [writeAt_inside _ _ _ _ (Nat.le_refl _) (by simp)]
      simp
    rw [h0]
    have h1 : readFrom (writeAt blk off (b :: bs)) (off + 1) bs.length
        = readFrom (writeAt blk (off + 1) bs) (off + 1) bs.length := by
      apply readFrom_congr
      intro j hj1 hj2
      rw [writeAt_inside _ _ _ _ (by omega) (by simp; omega),
        writeAt_inside _ _ _ _ hj1 hj2]
      have : j - off = (j - (off + 1)) + 1 := by omega
      rw [this]
      simp
    rw [h1, ih (off + 1)]

/-! ## Slots -/

theorem slotBlock_outside (blk : Block) (id size loc j : Nat)
    (h : j < 4 * id ∨ 4 * id + 4 ≤ j) : slotBlock blk id size loc j = blk j := by
  unfold slotBlock
  rw [writeAt_outside _ _ _ _ (by simp [u16Bytes_length]; omega),
    writeAt_outside _ _ _ _ (by simp [u16Bytes_length]; omega)]

theorem put_header_slot (p : SlottedPage) (id size loc : Nat) (h0 : id ≠ 0)
    (h : 4 * id + 4 ≤ BLOCK_SZ) :
    p.put_header id size loc = .ok { p with block := slotBlock p.block id size loc } := by
  have e1 : (4 * id) % 65536 = 4 * id := Nat.mod_eq_of_lt (by simp only [BLOCK_SZ] at h; omega)
  have e2 : (4 * id + 2) % 65536 = 4 * id + 2 :=
    Nat.mod_eq_of_lt (by simp only [BLOCK_SZ] at h; omega)
  have c1 : 4 * id + 2 ≤ BLOCK_SZ := by omega
  have c2 : 4 * id + 2 + 2 ≤ BLOCK_SZ := by omega
  simp [SlottedPage.put_header, SlottedPage.put_n, e1, e2, c1, c2, h0, slotBlock]

theorem put_header_zero (p : SlottedPage) (size loc : Nat) :
    p.put_header 0 size loc
      = .ok { p with block := slotBlock p.block 0 p.num_records p.end_free } := by
  simp [SlottedPage.put_header, SlottedPage.put_n, BLOCK_SZ, slotBlock]

theorem get_header_eq (p : SlottedPage) (id : Nat) (h : 4 * id + 4 ≤ BLOCK_SZ) :
    p.get_header id = .ok
      ((p.block (4 * id)).toNat + 256 * (p.block (4 * id + 1)).toNat,
       (p.block (4 * id + 2)).toNat + 256 * (p.block (4 * id + 3)).toNat) := by
  have e1 : (4 * id) % 65536 = 4 * id := Nat.mod_eq_of_lt (by simp only [BLOCK_SZ] at h; omega)
  have e2 : (4 * id + 2) % 65536 = 4 * id + 2 :=
    Nat.mod_eq_of_lt (by simp only [BLOCK_SZ] at h; omega)
  have c1 : 4 * id + 2 ≤ BLOCK_SZ := by omega
  have c2 : 4 * id + 2 + 2 ≤ BLOCK_SZ := by omega
  simp [SlottedPage.get_header, SlottedPage.get_n, e1, e2, c1, c2]

theorem get_header_congr (p q : SlottedPage) (id : Nat) (h : 4 * id + 4 ≤ BLOCK_SZ)
    (hb : ∀ j, 4 * id ≤ j → j < 4 * id + 4 → p.block j = q.block j) :
    p.get_header id = q.get_header id := by
  rw [get_header_eq p id h, get_header_eq q id h,
    hb (4 * id) (by omega) (by omega), hb (4 * id + 1) (by omega) (by omega),
    hb (4 * id + 2) (by omega) (by omega), hb (4 * id + 3) (by omega) (by omega)]

theorem slotBlock_read (blk : Block) (id size loc : Nat) (hs : size < 65536) (hl : loc < 65536) :
    (slotBlock blk id size loc (4 * id)).toNat + 256 * (slotBlock blk id size loc (4 * id + 1)).toNat
      = size ∧
    (slotBlock blk id size loc (4 * id + 2)).toNat
      + 256 * (slotBlock blk id size loc (4 * id + 3)).toNat = loc := by
  unfold slotBlock
  constructor
  · rw [writeAt_outside _ _ _ (4 * id) (by simp [u16Bytes_length]),
      writeAt_outside _ _ _ (4 * id + 1) (by simp [u16Bytes_length]),
      writeAt_inside _ _ _ (4 * id) (by omega) (by simp [u16Bytes_length]),
      writeAt_inside _ _ _ (4 * id + 1) (by omega) (by simp [u16Bytes_length])]
    simp only [u16Bytes, Nat.sub_self, Nat.add_sub_cancel_left, List.getD_cons_zero,
      List.getD_cons_succ]
    exact u16_decode size hs
  · rw [writeAt_inside _ _ _ (4 * id + 2) (by omega) (by simp [u16Bytes_length]),
      writeAt_inside _ _ _ (4 * id + 3) (by omega) (by simp [u16Bytes_length])]
    have e : 4 * id + 3 - (4 * id + 2) = 1 := by omega
    simp only [u16Bytes, Nat.sub_self, e, List.getD_cons_zero, List.getD_cons_succ]
    exact u16_decode loc hl

/-! ## Pages built by `add` -/

theorem totalLen_append (ds : List Bytes) (d : Bytes) :
    totalLen (ds ++ [d]) = totalLen ds + d.length := by
  simp [totalLen]

theorem totalLen_take_le (ds : List Bytes) (k : Nat) : totalLen (ds.take k) ≤ totalLen ds := by
  induction ds generalizing k with
  | nil => simp [totalLen]
  | cons d ds ih =>
    cases k with
    | zero => simp [totalLen]
    | succ k =>
      have := ih k
      simp only [totalLen, List.take_succ_cons, List.map_cons, List.sum_cons] at this ⊢
      omega

theorem locOf_append_old (ds : List Bytes) (d : Bytes) (i : Nat) (h : i < ds.length) :
    locOf (ds ++ [d]) i = locOf ds i := by
  unfold locOf
  rw [List.take_append_of_le_length (by omega)]

theorem locOf_append_new (ds : List Bytes) (d : Bytes) :
    locOf (ds ++ [d]) ds.length = BLOCK_SZ - (totalLen ds + d.length) := by
  unfold locOf
  have : (ds ++ [d]).take (ds.length + 1) = ds ++ [d] := by
    apply List.take_of_length_le
    simp
  rw [this, totalLen_append]

/-- What a returning `add` has done, on a page with fewer than 65535 records. -/
theorem add_ok_inv (p p' : SlottedPage) (d : Bytes) (id : Nat)
    (hn : p.num_records + 1 < 65536) (hslot : 4 * (p.num_records + 1) + 4 ≤ BLOCK_SZ)
    (h : p.add d = .ok (p', id)) :
    id = p.num_records + 1 ∧ p'.num_records = p.num_records + 1 ∧
    p'.block_id = p.block_id ∧
    p'.end_free = (p.end_free + 65536 - d.length % 65536) % 65536 ∧
    (p'.end_free + 1) % 65536 + d.length % 65536 ≤ BLOCK_SZ ∧
    p'.block = writeAt
      (slotBlock (slotBlock p.block 0 (p.num_records + 1) p'.end_free) (p.num_records + 1)
        (d.length % 65536) ((p'.end_free + 1) % 65536))
      ((p'.end_free + 1) % 65536) (d.take (d.length % 65536)) := by
  unfold SlottedPage.add at h
  have hid : (p.num_records + 1) % 65536 = p.num_records + 1 := Nat.mod_eq_of_lt hn
  have hne : p.num_records + 1 ≠ 0 := by omega
  have htake : (d.take (d.length % 65536)).length = d.length % 65536 := by
    rw [List.length_take]
    exact Nat.min_eq_left (Nat.mod_le _ _)
  split at h
  · simp only [hid, put_header_zero, put_header_slot _ _ _ _ hne hslot, writeBytes, htake] at h
    by_cases hw : ((p.end_free + 65536 - d.length % 65536) % 65536 + 1) % 65536
        + d.length % 65536 ≤ BLOCK_SZ
    · simp only [hw, if_true, Except.ok.injEq, Prod.mk.injEq] at h
      obtain ⟨hp, hi⟩ := h
      subst hp
      exact ⟨hi.symm, rfl, rfl, rfl, hw, rfl⟩
    · simp only [hw, if_false] at h
      cases h
  · cases h



theorem add_fails_at_1023 (p p' : SlottedPage) (d : Bytes) (id : Nat)
    (hn : p.num_records = 1023) : p.add d ≠ .ok (p', id) := by
  intro h
  unfold SlottedPage.add at h
  split at h
  · simp [hn, put_header_zero, SlottedPage.put_header, SlottedPage.put_n, BLOCK_SZ] at h
  · cases h

theorem inBounds_iff (p : SlottedPage) :
    inBounds p = true ↔ 4 * (p.num_records + 1) ≤ p.end_free + 1 ∧ p.end_free < BLOCK_SZ := by
  simp [inBounds]

/-- A returning `add` that leaves directory and payloads disjoint extends the
payloads of the page by the bytes added. -/
theorem add_good (p p' : SlottedPage) (ds : List Bytes) (d : Bytes) (id : Nat)
    (hg : Good p ds) (h : p.add d = .ok (p', id)) (hb : inBounds p' = true) :
    Good p' (ds ++ [d.take (d.length % 65536)]) ∧ id = ds.length + 1 ∧
      p'.block_id = p.block_id := by
  obtain ⟨hn, hef, hroom, hhdr, hslots, hdata, hfree⟩ := hg
  have hB : BLOCK_SZ = 4096 := rfl
  have hn1 : p.num_records ≤ 1023 := by omega
  have hslot : 4 * (p.num_records + 1) + 4 ≤ BLOCK_SZ := by
    by_contra hc
    exact add_fails_at_1023 p p' d id (by omega) h
  obtain ⟨hid, hn', hbid, hef', hw, hblk⟩ := add_ok_inv p p' d id (by omega) hslot h
  obtain ⟨hroom', hefb'⟩ := (inBounds_iff p').mp hb
  have hsz : d.length % 65536 < 65536 := Nat.mod_lt _ (by norm_num)
  have htake : (d.take (d.length % 65536)).length = d.length % 65536 := by
    rw [List.length_take]
    exact Nat.min_eq_left (Nat.mod_le _ _)
  -- no wrap-around
  have hloc : (p'.end_free + 1) % 65536 = p'.end_free + 1 := Nat.mod_eq_of_lt (by omega)
  rw [hloc] at hw hblk
  have hle : d.length % 65536 ≤ p.end_free := by
    by_contra hc
    have : (p.end_free + 65536 - d.length % 65536) % 65536
        = p.end_free + 65536 - d.length % 65536 := Nat.mod_eq_of_lt (by omega)
    omega
  have hefv : p'.end_free = p.end_free - d.length % 65536 := by
    rw [hef']
    have : p.end_free + 65536 - d.length % 65536
        = (p.end_free - d.length % 65536) + 65536 := by omega
    rw [this, Nat.add_mod_right]
    exact Nat.mod_eq_of_lt (by omega)
  -- the bytes of the new block, by region
  have hlow : ∀ j, j < 4 * (p.num_records + 1) → 4 ≤ j → p'.block j = p.block j := by
    intro j h1 h2
    rw [hblk, writeAt_outside _ _ _ _ (by omega), slotBlock_outside _ _ _ _ _ (by omega),
      slotBlock_outside _ _ _ _ _ (by omega)]
  have hmid : ∀ j, 4 * (p.num_records + 1) + 4 ≤ j → j ≤ p'.end_free → p'.block j = p.block j := by
    intro j h1 h2
    rw [hblk, writeAt_outside _ _ _ _ (by omega), slotBlock_outside _ _ _ _ _ (by omega),
      slotBlock_outside _ _ _ _ _ (by omega)]
  have hhigh : ∀ j, p.end_free + 1 ≤ j → p'.block j = p.block j := by
    intro j h1
    rw [hblk, writeAt_outside _ _ _ _ (by rw [htake]; omega),
      slotBlock_outside _ _ _ _ _ (by omega), slotBlock_outside _ _ _ _ _ (by omega)]
  refine ⟨⟨?_, ?_, ?_, ?_, ?_, ?_, ?_⟩, by omega, hbid⟩
  · simp [hn', hn]
  · rw [totalLen_append, htake]; omega
  · exact hroom'
  · rw [get_header_eq p' 0 (by omega)]
    have hb0 : ∀ j, j < 4 → p'.block j
        = slotBlock p.block 0 (p.num_records + 1) p'.end_free j := by
      intro j hj
      rw [hblk, writeAt_outside _ _ _ _ (by omega), slotBlock_outside _ _ _ _ _ (by omega)]
    obtain ⟨r1, r2⟩ := slotBlock_read p.block 0 (p.num_records + 1) p'.end_free
      (by omega) (by omega)
    simp only [Nat.mul_zero, Nat.zero_add] at r1 r2 ⊢
    rw [hb0 0 (by omega), hb0 1 (by omega), hb0 2 (by omega), hb0 3 (by omega), r1, r2, hn']
  · intro i hi
    simp only [List.length_append, List.length_singleton] at hi
    by_cases hlt : i < ds.length
    · rw [List.getElem_append_left hlt, locOf_append_old ds _ i hlt, ← hslots i hlt]
      apply get_header_congr _ _ _ (by omega)
      intro j h1 h2
      exact hlow j (by omega) (by omega)
    · have hieq : i = ds.length := by omega
      subst hieq
      rw [List.getElem_append_right (by omega)]
      simp only [Nat.sub_self, List.getElem_cons_zero]
      rw [locOf_append_new, htake, get_header_eq p' _ (by omega)]
      have hbs : ∀ j, 4 * (p.num_records + 1) ≤ j → j < 4 * (p.num_records + 1) + 4 →
          p'.block j = slotBlock (slotBlock p.block 0 (p.num_records + 1) p'.end_free)
            (p.num_records + 1) (d.length % 65536) (p'.end_free + 1) j := by
        intro j h1 h2
        rw [hblk, writeAt_outside _ _ _ _ (by omega)]
      obtain ⟨r1, r2⟩ := slotBlock_read
        (slotBlock p.block 0 (p.num_records + 1) p'.end_free) (p.num_records + 1)
        (d.length % 65536) (p'.end_free + 1) hsz (by omega)
      rw [← hn, hbs _ (by omega) (by omega), hbs _ (by omega) (by omega),
        hbs _ (by omega) (by omega), hbs _ (by omega) (by omega), r1, r2]
      congr 2
      omega
  · intro i hi
    simp only [List.length_append, List.length_singleton] at hi
    by_cases hlt : i < ds.length
    · rw [List.getElem_append_left hlt, locOf_append_old ds _ i hlt]
      obtain ⟨post, hpost⟩ := hdata i hlt
      refine ⟨post, ?_⟩
      rw [← hpost]
      apply readFrom_congr
      intro j h1 h2
      have := totalLen_take_le ds (i + 1)
      apply hhigh
      unfold locOf at h1
      omega
    · have hieq : i = ds.length := by omega
      subst hieq
      rw [List.getElem_append_right (by omega)]
      simp only [Nat.sub_self, List.getElem_cons_zero]
      rw [locOf_append_new, htake]
      have hl : BLOCK_SZ - (totalLen ds + d.length % 65536) = p'.end_free + 1 := by omega
      have hsplit : BLOCK_SZ - (p'.end_free + 1)
          = (d.take (d.length % 65536)).length + (BLOCK_SZ - (p.end_free + 1)) := by
        rw [htake]; omega
      rw [hl, hsplit, readFrom_add]
      refine ⟨readFrom p'.block (p'.end_free + 1 + (d.take (d.length % 65536)).length)
        (BLOCK_SZ - (p.end_free + 1)), ?_⟩
      congr 1
      rw [hblk]
      exact readFrom_writeAt_self _ _ _
  · intro j h1 h2
    rw [hmid j (by omega) h2]
    exact hfree j (by omega) (by omega)

theorem get_header_block (p q : SlottedPage) (id : Nat) (h : p.block = q.block) :
    p.get_header id = q.get_header id := by
  simp [SlottedPage.get_header, SlottedPage.get_n, h]

theorem Good.transfer {p q : SlottedPage} {ds : List Bytes} (hg : Good p ds)
    (hb : q.block = p.block) (hn : q.num_records = p.num_records)
    (he : q.end_free = p.end_free) : Good q ds := by
  obtain ⟨h1, h2, h3, h4, h5, h6, h7⟩ := hg
  refine ⟨by rw [hn, h1], by rw [he, h2], by rw [hn, he]; exact h3, ?_, ?_, ?_, ?_⟩
  · rw [get_header_block q p 0 hb, hn, he]; exact h4
  · intro i hi; rw [get_header_block q p _ hb]; exact h5 i hi
  · intro i hi; rw [hb]; exact h6 i hi
  · intro j hj1 hj2; rw [hb]; rw [hn] at hj1; rw [he] at hj2; exact h7 j hj1 hj2

/-- The new page over the zero-filled buffer holds no payload. -/
theorem mkNew_good (block_id : Nat) (p : SlottedPage)
    (h : SlottedPage.mkNew zeroBlock block_id = .ok p) :
    Good p [] ∧ p.block_id = block_id := by
  unfold SlottedPage.mkNew at h
  rw [put_header_zero] at h
  cases h
  refine ⟨⟨rfl, rfl, by simp [BLOCK_SZ], ?_, ?_, ?_, ?_⟩, rfl⟩
  · rw [get_header_eq _ 0 (by simp [BLOCK_SZ])]
    obtain ⟨r1, r2⟩ := slotBlock_read zeroBlock 0 0 (BLOCK_SZ - 1) (by norm_num)
      (by simp [BLOCK_SZ])
    simp only [Nat.mul_zero, Nat.zero_add] at r1 r2 ⊢
    rw [r1, r2]
  · intro i hi; simp at hi
  · intro i hi; simp at hi
  · intro j hj1 _
    show slotBlock zeroBlock 0 0 (BLOCK_SZ - 1) j = 0
    rw [slotBlock_outside _ _ _ _ _ (Or.inr (by simpa using hj1))]
    rfl

theorem mkNew_ok (block_id : Nat) : ∃ p, SlottedPage.mkNew zeroBlock block_id = .ok p :=
  ⟨_, put_header_zero _ 0 0⟩

/-- On a page with room for the payload and its slot, `add` returns. -/
theorem add_ok_of_fits (p : SlottedPage) (ds : List Bytes) (d : Bytes) (hg : Good p ds)
    (hf : p.addFits d = true) : ∃ p' id, p.add d = .ok (p', id) ∧ inBounds p' = true ∧
      d.length % 65536 = d.length := by
  have hB : BLOCK_SZ = 4096 := rfl
  obtain ⟨hn, hef, hroom, -, -, -, -⟩ := hg
  have hfit : 4 * (p.num_records + 2) + d.length ≤ p.end_free + 1 := by
    simpa [SlottedPage.addFits] using hf
  have hsz : d.length % 65536 = d.length := Nat.mod_eq_of_lt (by omega)
  have hroomy : p.has_room (d.length % 65536) = true := by
    unfold SlottedPage.has_room
    rw [hsz]
    have e : ((p.end_free : Int) - ((p.num_records : Int) + 1) * 4) % 65536
        = (p.end_free : Int) - ((p.num_records : Int) + 1) * 4 :=
      Int.emod_eq_of_lt (by omega) (by omega)
    simp only [e, decide_eq_true_eq]
    omega
  have hid : (p.num_records + 1) % 65536 = p.num_records + 1 := Nat.mod_eq_of_lt (by omega)
  have hefv : (p.end_free + 65536 - d.length) % 65536 = p.end_free - d.length := by
    have : p.end_free + 65536 - d.length = (p.end_free - d.length) + 65536 := by omega
    rw [this, Nat.add_mod_right]
    exact Nat.mod_eq_of_lt (by omega)
  have hloc : (p.end_free - d.length + 1) % 65536 = p.end_free - d.length + 1 :=
    Nat.mod_eq_of_lt (by omega)
  have hw : p.end_free - d.length + 1 + d.length ≤ BLOCK_SZ := by omega
  have hadd : p.add d = .ok
      (⟨p.block_id, p.num_records + 1, p.end_free - d.length,
        writeAt (slotBlock (slotBlock p.block 0 (p.num_records + 1) (p.end_free - d.length))
          (p.num_records + 1) d.length (p.end_free - d.length + 1))
          (p.end_free - d.length + 1) d⟩, p.num_records + 1) := by
    have hroomy2 : p.has_room d.length = true := by rw [hsz] at hroomy; exact hroomy
    unfold SlottedPage.add
    simp only [hsz, hroomy2, if_true, hid, hefv, hloc, put_header_zero,
      put_header_slot _ _ _ _ (show p.num_records + 1 ≠ 0 by omega)
        (show 4 * (p.num_records + 1) + 4 ≤ BLOCK_SZ by omega),
      writeBytes, List.take_length, hw]
  refine ⟨_, p.num_records + 1, hadd, ?_, hsz⟩
  rw [inBounds_iff]
  constructor
  · show 4 * (p.num_records + 1 + 1) ≤ p.end_free - d.length + 1
    omega
  · show p.end_free - d.length < BLOCK_SZ
    omega

/-- `add` on a page with room for the payload and its slot: it returns the
next id, and the page then holds the payloads it held and the new one. -/
theorem add_fits_good (p : SlottedPage) (ds : List Bytes) (d : Bytes) (hg : Good p ds)
    (hf : p.addFits d = true) :
    ∃ p', p.add d = .ok (p', ds.length + 1) ∧ Good p' (ds ++ [d]) ∧
      p'.block_id = p.block_id := by
  obtain ⟨p', id, hadd, hb, hsz⟩ := add_ok_of_fits p ds d hg hf
  obtain ⟨hg', hid, hbid⟩ := add_good p p' ds d id hg hadd hb
  rw [hsz, List.take_length] at hg'
  subst hid
  exact ⟨p', hadd, hg', hbid⟩

theorem addReach_good (p : SlottedPage) (h : AddReach p) : ∃ ds, Good p ds := by
  induction h with
  | fresh block_id p hp => exact ⟨[], (mkNew_good block_id p hp).1⟩
  | add p p' data id _ hf hadd ih =>
    obtain ⟨ds, hg⟩ := ih
    obtain ⟨q, hq, hgq, _⟩ := add_fits_good p ds data hg hf
    rw [hadd] at hq
    cases hq
    exact ⟨_, hgq⟩

theorem locOf_pos (p : SlottedPage) (ds : List Bytes) (hg : Good p ds) (i : Nat) :
    p.end_free + 1 ≤ locOf ds i ∧ locOf ds i ≤ BLOCK_SZ := by
  have := totalLen_take_le ds (i + 1)
  have := hg.ef_eq
  unfold locOf
  omega

/-- `get` on a page that holds the payloads `ds`. -/
theorem get_good (p : SlottedPage) (ds : List Bytes) (hg : Good p ds) (i : Nat)
    (hi : i < ds.length) :
    ∃ post, p.get (i + 1) = .ok (some ⟨ds[i] ++ post, ds[i].length⟩) := by
  obtain ⟨post, hpost⟩ := hg.data i hi
  have hpos := (locOf_pos p ds hg i).1
  have hne : locOf ds i ≠ 0 := by omega
  refine ⟨post, ?_⟩
  unfold SlottedPage.get
  rw [hg.slot i hi]
  simp only [hne, if_false, hpost]

theorem idsFrom_good (p : SlottedPage) (ds : List Bytes) (hg : Good p ds) :
    ∀ (m k : Nat), k + m = ds.length →
      SlottedPage.idsFrom p (k + 1) m = .ok (List.range' (k + 1) m) := by
  intro m
  induction m with
  | zero => intro k _; rfl
  | succ m ih =>
    intro k hk
    have hpos := (locOf_pos p ds hg k).1
    have hne : locOf ds k ≠ 0 := by omega
    simp only [SlottedPage.idsFrom, hg.slot k (by omega), ih (k + 1) (by omega)]
    simp [hne, List.range']

/-- `ids` on a page that holds the payloads `ds`: all ids `1 .. ds.length`. -/
theorem ids_good (p : SlottedPage) (ds : List Bytes) (hg : Good p ds) :
    p.ids = .ok (List.range' 1 ds.length) := by
  unfold SlottedPage.ids
  rw [hg.n_eq]
  exact idsFrom_good p ds hg ds.length 0 (by omega)

/-! ## Rows -/

theorem conformsCols_mem (row : ValueDict) : ∀ (cs : List String) (tys : List DataType),
    ConformsCols row cs tys → ∀ c ∈ cs, ∃ v, row c = some v := by
  intro cs
  induction cs with
  | nil => intro tys _ c hc; simp at hc
  | cons c0 cs ih =>
    intro tys h c hc
    cases tys with
    | nil => exact absurd h (by simp [ConformsCols])
    | cons ty tys =>
      obtain ⟨⟨v, hv, _⟩, hrest⟩ := h
      rcases List.mem_cons.mp hc with e | e
      · exact ⟨v, by rw [e]; exact hv⟩
      · exact ih tys hrest c e

theorem validateFrom_eq (row : ValueDict) : ∀ (cs : List String) (acc : ValueDict),
    (∀ c ∈ cs, ∃ v, row c = some v) →
    HeapTable.validateFrom row cs acc = .ok (fun k => if k ∈ cs then row k else acc k) := by
  intro cs
  induction cs with
  | nil => intro acc _; simp [HeapTable.validateFrom]
  | cons c cs ih =>
    intro acc h
    obtain ⟨v, hv⟩ := h c (by simp)
    rw [HeapTable.validateFrom]
    simp only [hv]
    rw [ih (acc.set c v) (fun c' hc' => h c' (by simp [hc']))]
    congr 1
    funext k
    by_cases hk : k ∈ cs
    · simp [hk]
    · by_cases hkc : k = c
      · simp [hk, hkc, ValueDict.set, hv]
      · simp [hk, hkc, ValueDict.set]

theorem projectFrom_eq_validateFrom (row : ValueDict) : ∀ (cs : List String) (acc : ValueDict),
    HeapTable.projectFrom row cs acc = HeapTable.validateFrom row cs acc := by
  intro cs
  induction cs with
  | nil => intro acc; rfl
  | cons c cs ih =>
    intro acc
    rw [HeapTable.projectFrom, HeapTable.validateFrom]
    cases row c with
    | none => rfl
    | some v => exact ih _

/-- `validate` returns a row with exactly the schema's columns unchanged. -/
theorem validate_conforms (t : HeapTable) (row : ValueDict) (hc : Conforms t row) :
    t.validate row = .ok row := by
  unfold HeapTable.validate
  rw [validateFrom_eq row t.column_names _ (conformsCols_mem row _ _ hc.1)]
  congr 1
  funext k
  by_cases hk : k ∈ t.column_names
  · simp [hk]
  · simp [hk, hc.2 k hk, ValueDict.empty]

/-- When the loop of `marshal` returns on a conforming row, the layout of the
remaining columns fits the buffer. -/
theorem marshalFrom_ok_fits (row : ValueDict) (attrs : List DataType) :
    ∀ (cs : List String) (tys : List DataType) (col_num : Nat) (acc bytes : Bytes),
      attrs.drop col_num = tys → ConformsCols row cs tys → acc.length ≤ BLOCK_SZ →
      HeapTable.marshalFrom row attrs cs col_num acc = .ok bytes →
      acc.length + (layout row cs tys).length ≤ BLOCK_SZ := by
  intro cs
  induction cs with
  | nil =>
    intro tys col_num acc bytes _ hc hacc _
    cases tys with
    | nil => simpa [layout] using hacc
    | cons ty tys => exact absurd hc (by simp [ConformsCols])
  | cons c cs ih =>
    intro tys col_num acc bytes hd hc hacc h
    cases tys with
    | nil => exact absurd hc (by simp [ConformsCols])
    | cons ty tys =>
      obtain ⟨⟨v, hv, hty⟩, hrest⟩ := hc
      obtain ⟨hget, hdrop⟩ := get?_of_drop attrs col_num ty tys hd
      cases ty with
      | INT =>
        have hl : layout row (c :: cs) (DataType.INT :: tys)
            = int32Bytes v.n ++ layout row cs tys := by simp [layout, hv]
        rw [hl]
        rw [HeapTable.marshalFrom, hget] at h
        simp only [hv] at h
        by_cases h4 : acc.length + 4 ≤ BLOCK_SZ
        · simp only [h4, if_true] at h
          have := ih tys (col_num + 1) (acc ++ int32Bytes v.n) bytes hdrop hrest
            (by simp only [List.length_append, int32Bytes_length]; exact h4) h
          simp only [List.length_append, int32Bytes_length] at this ⊢
          omega
        · simp only [h4, if_false] at h
          cases h
      | TEXT =>
        have hlen : v.s.length < 65536 := hty.2
        have hl : layout row (c :: cs) (DataType.TEXT :: tys)
            = u16Bytes v.s.length ++ v.s ++ layout row cs tys := by simp [layout, hv]
        rw [hl]
        have hm1 : v.s.length % 4294967296 = v.s.length := Nat.mod_eq_of_lt (by omega)
        have hm2 : v.s.length % 65536 = v.s.length := Nat.mod_eq_of_lt hlen
        rw [HeapTable.marshalFrom, hget] at h
        simp only [hv, hm1, hm2, List.take_length] at h
        by_cases h4 : acc.length + 2 + v.s.length ≤ BLOCK_SZ
        · simp only [h4, if_true] at h
          have := ih tys (col_num + 1) (acc ++ u16Bytes v.s.length ++ v.s) bytes hdrop hrest
            (by simp only [List.length_append, u16Bytes_length]; exact h4) h
          simp only [List.length_append, u16Bytes_length] at this ⊢
          omega
        · simp only [h4, if_false] at h
          cases h
      | BOOLEAN => exact absurd hty (by simp [Value.hasType])

/-- When `marshal` returns on a conforming row, its result is the layout of
the row, of at most `BLOCK_SZ` bytes. -/
theorem marshal_ok_layout (t : HeapTable) (row : ValueDict) (d : Dbt) (hc : Conforms t row)
    (h : t.marshal row = .ok d) :
    d = Dbt.ofBytes (layout row t.column_names t.column_attributes) ∧
      (layout row t.column_names t.column_attributes).length ≤ BLOCK_SZ := by
  unfold HeapTable.marshal at h
  cases hm : HeapTable.marshalFrom row t.column_attributes t.column_names 0 [] with
  | error e => rw [hm] at h; cases h
  | ok bytes =>
    have hfit := marshalFrom_ok_fits row t.column_attributes t.column_names t.column_attributes
      0 [] bytes rfl hc.1 (by simp) hm
    simp only [List.length_nil, Nat.zero_add] at hfit
    have hl := marshalFrom_layout row t.column_attributes t.column_names t.column_attributes
      0 [] rfl hc.1 (by simpa using hfit)
    rw [hl] at h
    simp only [List.nil_append, Except.ok.injEq] at h
    exact ⟨h.symm, hfit⟩

theorem Dbt.bytes_ofBytes (bs : Bytes) : (Dbt.ofBytes bs).bytes = bs := by
  simp [Dbt.bytes, Dbt.ofBytes]

/-- The layout of a row has the size the spec gives for the marshalled row. -/
theorem layout_length (row : ValueDict) : ∀ (cs : List String) (tys : List DataType),
    (layout row cs tys).length = marshalledSize row cs tys := by
  intro cs
  induction cs with
  | nil => intro tys; cases tys <;> rfl
  | cons c cs ih =>
    intro tys
    cases tys with
    | nil => rfl
    | cons ty tys =>
      simp only [layout, marshalledSize, List.length_append, ih tys]
      cases row c with
      | none => rfl
      | some v => cases ty <;> simp [int32Bytes_length, u16Bytes_length]

theorem totalLen_cons (d : Bytes) (ds : List Bytes) :
    totalLen (d :: ds) = d.length + totalLen ds := by
  simp [totalLen]

/-! ## Tables -/

theorem mkExisting_good (p : SlottedPage) (ds : List Bytes) (hg : Good p ds) (bid : Nat) :
    SlottedPage.mkExisting p.block bid = .ok ⟨bid, p.num_records, p.end_free, p.block⟩ ∧
      Good ⟨bid, p.num_records, p.end_free, p.block⟩ ds := by
  constructor
  · unfold SlottedPage.mkExisting
    rw [get_header_block ⟨bid, 0, 0, p.block⟩ p 0 rfl, hg.hdr]
  · exact hg.transfer rfl rfl rfl

theorem handlesFrom_append (A B : List (List Bytes)) : ∀ (b : Nat),
    handlesFrom b (A ++ B) = handlesFrom b A ++ handlesFrom (b + A.length) B := by
  induction A with
  | nil => intro b; simp [handlesFrom]
  | cons a A ih =>
    intro b
    have e : b + 1 + A.length = b + (A.length + 1) := by omega
    show handlesOfPage b a.length ++ handlesFrom (b + 1) (A ++ B)
      = (handlesOfPage b a.length ++ handlesFrom (b + 1) A) ++ handlesFrom (b + (A.length + 1)) B
    rw [ih (b + 1), List.append_assoc, e]

theorem handlesOfPage_succ (b n : Nat) :
    handlesOfPage b (n + 1) = handlesOfPage b n ++ [(b, n + 1)] := by
  unfold handlesOfPage
  rw [List.range'_concat]
  simp [Nat.add_comm]

theorem length_le_totalLen (ds : List Bytes) : ∀ (i : Nat) (h : i < ds.length),
    ds[i].length ≤ totalLen ds := by
  induction ds with
  | nil => intro i h; simp at h
  | cons d ds ih =>
    intro i h
    cases i with
    | zero => simp [totalLen]
    | succ i =>
      have := ih i (by simpa using h)
      simp only [totalLen, List.getElem_cons_succ, List.map_cons, List.sum_cons] at this ⊢
      omega

/-- `select()` on a table whose blocks hold `pages`. -/
theorem selectFrom_good (t : HeapTable) (pages : List (List Bytes)) (hg : TGood t pages) :
    ∀ (m k : Nat), k + m = pages.length →
      HeapTable.selectFrom t (List.range' (k + 1) m) = .ok (handlesFrom (k + 1) (pages.drop k)) := by
  intro m
  induction m with
  | zero =>
    intro k hk
    have : pages.drop k = [] := List.drop_eq_nil_of_le (by omega)
    rw [this]
    rfl
  | succ m ih =>
    intro k hk
    have hlt : k < pages.length := by omega
    obtain ⟨p, hp, _, hgood⟩ := hg.page k hlt
    have hd : pages.drop k = pages[k] :: pages.drop (k + 1) := List.drop_eq_getElem_cons hlt
    rw [hd]
    show HeapTable.selectFrom t ((k + 1) :: List.range' (k + 1 + 1) m) = _
    rw [HeapTable.selectFrom, hp]
    simp only [ids_good p _ hgood, ih (k + 1) (by omega)]
    rfl

theorem select_good (t : HeapTable) (pages : List (List Bytes)) (hg : TGood t pages) :
    t.select = .ok (handlesFrom 1 pages) := by
  unfold HeapTable.select HeapFile.block_ids
  rw [hg.last_eq]
  exact selectFrom_good t pages hg pages.length 0 (by omega)

/-- `project` of a handle whose record holds the layout of a conforming row
without zero bytes in its texts. -/
theorem project_good (t : HeapTable) (pages : List (List Bytes)) (hg : TGood t pages)
    (h : Handle) (row : ValueDict) (hc : Conforms t row) (hnul : NulFree row)
    (hs : Stored pages h (layout row t.column_names t.column_attributes)) :
    ∃ r, t.project h = .ok r ∧ r.agree row := by
  obtain ⟨ds, hds, hd, h1, h2⟩ := hs
  obtain ⟨hb, hpe⟩ := List.get?_eq_some.mp hds
  obtain ⟨hi, hde⟩ := List.get?_eq_some.mp hd
  obtain ⟨p, hp, _, hgood⟩ := hg.page (h.1 - 1) hb
  have e1 : h.1 - 1 + 1 = h.1 := by omega
  have e2 : h.2 - 1 + 1 = h.2 := by omega
  rw [e1] at hp
  have hpe2 : pages[h.1 - 1] = ds := by simpa using hpe
  rw [hpe2] at hgood
  obtain ⟨post, hget⟩ := get_good p ds hgood (h.2 - 1) hi
  have hde2 : ds[h.2 - 1] = layout row t.column_names t.column_attributes := by simpa using hde
  rw [e2, hde2] at hget
  have hlen : (layout row t.column_names t.column_attributes).length ≤ BLOCK_SZ := by
    have := length_le_totalLen ds (h.2 - 1) hi
    rw [hde2] at this
    have := hgood.ef_eq
    omega
  obtain ⟨r, hr, hin, hout⟩ := unmarshalFrom_layout row t.column_attributes hnul t.column_names
    t.column_attributes 0 [] post ⟨.INT, 0, []⟩ ValueDict.empty rfl hc.1 (by simpa using hlen)
  simp only [List.nil_append, List.length_nil] at hr
  have hagree : r.agree row := by
    intro k
    by_cases hk : k ∈ t.column_names
    · exact hin k hk
    · rw [hout k hk, hc.2 k hk]
      simp [ValueDict.empty, sameEntry]
  unfold HeapTable.project HeapTable.projectCols
  rw [hp]
  simp only [hget, HeapTable.unmarshal, hr]
  by_cases hemp : t.column_names.isEmpty = true
  · simp only [hemp, if_true]
    exact ⟨r, rfl, hagree⟩
  · simp only [hemp]
    have hpres : ∀ c ∈ t.column_names, ∃ v, r c = some v := by
      intro c hcm
      obtain ⟨v, hv⟩ := conformsCols_mem row _ _ hc.1 c hcm
      have := hin c hcm
      rw [hv] at this
      cases hrc : r c with
      | none => rw [hrc] at this; simp [sameEntry] at this
      | some w => exact ⟨w, rfl⟩
    rw [projectFrom_eq_validateFrom, validateFrom_eq r _ _ hpres]
    refine ⟨_, rfl, ?_⟩
    intro k
    by_cases hk : k ∈ t.column_names
    · simp only [hk, if_true]
      exact hin k hk
    · simp only [hk, if_false, hc.2 k hk]
      simp [ValueDict.empty, sameEntry]

theorem get_put_ne (f : HeapFile) (p : SlottedPage) (b : Nat) (h : b ≠ p.block_id) :
    (f.put p).get b = f.get b := by
  simp [HeapFile.get, HeapFile.put, h]

theorem get_put_eq (f : HeapFile) (p : SlottedPage) (ds : List Bytes) (hg : Good p ds) :
    ∃ q, (f.put p).get p.block_id = .ok q ∧ q.block_id = p.block_id ∧ Good q ds := by
  refine ⟨⟨p.block_id, p.num_records, p.end_free, p.block⟩, ?_, rfl,
    (mkExisting_good p ds hg p.block_id).2⟩
  simp [HeapFile.get, HeapFile.put, (mkExisting_good p ds hg p.block_id).1]

theorem add_no_room (p : SlottedPage) (d : Bytes) (h : p.has_room (d.length % 65536) = false) :
    p.add d = .error .DbBlockNoRoomError := by
  unfold SlottedPage.add
  simp [h]

/-- `has_room` on a page that holds the payloads `ds` and is not full to the
last byte: the size is compared with the bytes between directory and
payloads. -/
theorem has_room_good (p : SlottedPage) (ds : List Bytes) (hg : Good p ds) (sz : Nat)
    (hne : 4 * (ds.length + 1) + totalLen ds ≤ 4095) :
    p.has_room sz = decide (4 * (ds.length + 1) + totalLen ds + sz ≤ 4095) := by
  have hB : BLOCK_SZ = 4096 := rfl
  have hn := hg.n_eq
  have hef := hg.ef_eq
  unfold SlottedPage.has_room
  have e : ((p.end_free : Int) - ((p.num_records : Int) + 1) * 4) % 65536
      = (p.end_free : Int) - ((p.num_records : Int) + 1) * 4 :=
    Int.emod_eq_of_lt (by omega) (by omega)
  simp only [e]
  rw [decide_eq_decide]
  omega

/-- An insert of a conforming row into a last block with room for the row and
its slot: the row becomes the next record of that block. -/
theorem insert_same_block (t : HeapTable) (done : List (List Bytes)) (cur : List Bytes)
    (row : ValueDict) (hg : TGood t (done ++ [cur])) (hc : Conforms t row)
    (hfit : 4 * (cur.length + 2) + (layout row t.column_names t.column_attributes).length
      + totalLen cur ≤ BLOCK_SZ) :
    ∃ t', t.insert row = .ok (t', (done.length + 1, cur.length + 1)) ∧
      t'.column_names = t.column_names ∧ t'.column_attributes = t.column_attributes ∧
      TGood t' (done ++ [cur ++ [layout row t.column_names t.column_attributes]]) := by
  have hB : BLOCK_SZ = 4096 := rfl
  have hv := validate_conforms t row hc
  have hlast : t.file.last = done.length + 1 := by rw [hg.last_eq]; simp
  have hdl : done.length < (done ++ [cur]).length := by simp
  obtain ⟨p, hp, hpid, hgood⟩ := hg.page done.length hdl
  have hcur : (done ++ [cur])[done.length] = cur := by
    rw [List.getElem_append_right (Nat.le_refl _)]
    simp
  rw [hcur] at hgood
  have hm : t.marshal row
      = .ok (Dbt.ofBytes (layout row t.column_names t.column_attributes)) := by
    have := marshalFrom_layout row t.column_attributes t.column_names t.column_attributes
      0 [] rfl hc.1 (by simp only [List.length_nil]; omega)
    simp [HeapTable.marshal, this]
  have hf : p.addFits (layout row t.column_names t.column_attributes) = true := by
    have h1 := hgood.n_eq
    have h2 := hgood.ef_eq
    simp only [SlottedPage.addFits, decide_eq_true_eq, h1]
    omega
  obtain ⟨p', hadd, hgood', hpid'⟩ := add_fits_good p cur _ hgood hf
  refine ⟨{ t with file := t.file.put p' }, ?_, rfl, rfl, ?_⟩
  · unfold HeapTable.insert HeapTable.append
    rw [hv]
    simp only [hm, HeapFile.get_last_block_id, hlast, hp, Dbt.bytes_ofBytes, hadd]
    simp [HeapFile.put, hlast]
  · constructor
    · show (t.file.put p').last = _
      simp [HeapFile.put, hlast]
    · intro b hb
      simp only [List.length_append, List.length_singleton] at hb
      by_cases hlt : b < done.length
      · obtain ⟨q, hq, hqid, hqg⟩ := hg.page b (by simp; omega)
        refine ⟨q, ?_, hqid, ?_⟩
        · show (t.file.put p').get (b + 1) = _
          rw [get_put_ne _ _ _ (by rw [hpid', hpid]; omega)]
          exact hq
        · rw [List.getElem_append_left hlt] at hqg ⊢
          exact hqg
      · have hbe : b = done.length := by omega
        subst hbe
        obtain ⟨q, hq, hqid, hqg⟩ := get_put_eq t.file p' _ hgood'
        rw [hpid', hpid] at hq hqid
        refine ⟨q, hq, hqid, ?_⟩
        rw [List.getElem_append_right (Nat.le_refl _)]
        simpa using hqg

theorem conforms_of_same_schema (t t' : HeapTable) (row : ValueDict)
    (h1 : t'.column_names = t.column_names) (h2 : t'.column_attributes = t.column_attributes)
    (hc : Conforms t row) : Conforms t' row := by
  unfold Conforms at hc ⊢
  rw [h1, h2]
  exact hc

/-- A sequence of inserts of conforming rows that all find room, with their
slots, on the last block: they return the next handles of that block, in
order, and the block then holds the layouts of the rows after the payloads it
held. -/
theorem insertAll_same_block : ∀ (rows : List ValueDict) (t : HeapTable)
    (done : List (List Bytes)) (cur : List Bytes),
    TGood t (done ++ [cur]) → (∀ r ∈ rows, Conforms t r) →
    4 * (cur.length + rows.length + 1) + totalLen cur
      + totalLen (rows.map (fun r => layout r t.column_names t.column_attributes))
      ≤ BLOCK_SZ →
    ∃ t', insertAll t rows = .ok (t',
        (List.range' (cur.length + 1) rows.length).map (fun r => (done.length + 1, r))) ∧
      t'.column_names = t.column_names ∧ t'.column_attributes = t.column_attributes ∧
      TGood t' (done ++ [cur ++ rows.map
        (fun r => layout r t.column_names t.column_attributes)]) := by
  intro rows
  induction rows with
  | nil =>
    intro t done cur hg _ _
    exact ⟨t, rfl, rfl, rfl, by simpa using hg⟩
  | cons r rs ih =>
    intro t done cur hg hconf hfit
    rw [List.map_cons, totalLen_cons, List.length_cons] at hfit
    obtain ⟨t1, hins, hn1, ha1, hg1⟩ := insert_same_block t done cur r hg
      (hconf r (by simp)) (by omega)
    obtain ⟨t', hrun, hn', ha', hg'⟩ := ih t1 done
      (cur ++ [layout r t.column_names t.column_attributes]) hg1
      (fun r' hr' => conforms_of_same_schema t t1 r' hn1 ha1 (hconf r' (by simp [hr'])))
      (by
        rw [hn1, ha1, totalLen_append, List.length_append, List.length_singleton]
        omega)
    rw [hn1, ha1] at hg'
    refine ⟨t', ?_, hn'.trans hn1, ha'.trans ha1, ?_⟩
    · unfold insertAll
      rw [hins]
      simp only [hrun, List.length_append, List.length_singleton, List.length_cons]
      rfl
    · simpa [List.append_assoc] using hg'

/-- The table just created holds one block without records. -/
theorem create_good (names : List String) (attrs : List DataType) (t0 : HeapTable)
    (h : HeapTable.create names attrs = .ok t0) :
    t0.column_names = names ∧ t0.column_attributes = attrs ∧ TGood t0 ([] ++ [[]]) := by
  obtain ⟨p0, hp0⟩ := mkNew_ok 1
  obtain ⟨hg0, hp0id⟩ := mkNew_good _ p0 hp0
  unfold HeapTable.create HeapFile.create HeapFile.get_new HeapFile.putStale at h
  simp only [Nat.zero_add, Nat.reduceMod, hp0] at h
  cases h
  refine ⟨rfl, rfl, ⟨rfl, ?_⟩⟩
  intro b hb
  simp only [List.nil_append, List.length_singleton, Nat.lt_one_iff] at hb
  subst hb
  obtain ⟨q, hq, hqid, hqg⟩ := get_put_eq (HeapFile.put ⟨1, fun _ => none⟩ p0) p0 [] hg0
  rw [hp0id] at hq hqid
  exact ⟨q, hq, hqid, by simpa using hqg⟩

/-! ## The rows of the examples -/

theorem rowHello_conforms : Conforms tableAB rowHello ∧ NulFree rowHello := by
  refine ⟨⟨⟨⟨_, rfl, by decide⟩, ⟨_, rfl, by decide⟩, trivial⟩, ?_⟩, ?_⟩
  · intro k hk
    have hk2 : k ∉ ["a", "b"] := hk
    simp at hk2
    simp [rowHello, hk2.1, hk2.2]
  · intro k v hv _
    unfold rowHello at hv
    split at hv
    · cases hv; decide
    · split at hv
      · cases hv; decide
      · cases hv

theorem rowEmptyText_conforms : Conforms tableAB rowEmptyText ∧ NulFree rowEmptyText := by
  refine ⟨⟨⟨⟨_, rfl, by decide⟩, ⟨_, rfl, by decide⟩, trivial⟩, ?_⟩, ?_⟩
  · intro k hk
    have hk2 : k ∉ ["a", "b"] := hk
    simp at hk2
    simp [rowEmptyText, hk2.1, hk2.2]
  · intro k v hv _
    unfold rowEmptyText at hv
    split at hv
    · cases hv; decide
    · split at hv
      · cases hv; decide
      · cases hv

/-! # The claims -/

/-- C1: on a new page the 4091-byte payload of zero bytes is accepted by `add`
(`has_room` compares with `4095 - 4`), which returns id 1; the payload is
then copied over bytes 5..7 of slot 1, and `get(1)` returns `nullptr`
instead of the payload. -/
theorem add_exact_fit_then_get :
    (do let p ← runFresh []
        let (p1, id) ← p.add (List.replicate 4091 0)
        let r ← getBytes p1 id
        pure (id, p1.num_records, p1.end_free, r))
      = (Except.ok (1, 1, 4, none) : Except Err (Nat × Nat × Nat × Option Bytes)) := by
  decide!

/-- C2: with records 1 = "AB" and 2 = "CD" on a new page (both live), `del(2)`
returns, record 1 is still live and `get(1)` then yields "CD": `slide` copies
`start - end_free + 1` bytes, two more than the bytes below `start`. -/
theorem del_overwrites_neighbour :
    (do let p ← runFresh [.add [65, 66], .add [67, 68]]
        let ids0 ← p.ids
        let before ← getBytes p 1
        let p1 ← p.del 2
        let ids1 ← p1.ids
        let after ← getBytes p1 1
        pure (ids0, before, ids1, after))
      = (Except.ok ([1, 2], some [65, 66], [1], some [67, 68]) :
          Except Err (List Nat × Option Bytes × List Nat × Option Bytes)) := by
  decide

/-- C3 (as amended): for every schema and every row that has exactly the
schema's columns with values of the declared types, no zero byte in a text
and a marshalled size of at most 4096 bytes, `marshal` returns, `unmarshal`
of its result returns, and the row it returns is the row marshalled. -/
theorem marshal_unmarshal_roundtrip (t : HeapTable) (row : ValueDict)
    (hc : Conforms t row) (hnul : NulFree row)
    (hfit : (layout row t.column_names t.column_attributes).length ≤ BLOCK_SZ) :
    ∃ d r, t.marshal row = .ok d ∧ t.unmarshal (some d) = .ok r ∧ r.agree row := by
  obtain ⟨hcols, hkeys⟩ := hc
  have hm := marshalFrom_layout row t.column_attributes t.column_names t.column_attributes 0 []
    rfl hcols (by simpa using hfit)
  obtain ⟨r, hr, hin, hout⟩ := unmarshalFrom_layout row t.column_attributes hnul t.column_names
    t.column_attributes 0 [] [] ⟨.INT, 0, []⟩ ValueDict.empty rfl hcols (by simpa using hfit)
  refine ⟨Dbt.ofBytes (layout row t.column_names t.column_attributes), r, ?_, ?_, ?_⟩
  · simp [HeapTable.marshal, hm]
  · simpa [HeapTable.unmarshal, Dbt.ofBytes] using hr
  · intro k
    by_cases hk : k ∈ t.column_names
    · exact hin k hk
    · rw [hout k hk, hkeys k hk]
      simp [ValueDict.empty, sameEntry]

/-- C3, witness: the row `a = 12, b = "Hello!"` of the test in the source. -/
theorem marshal_unmarshal_roundtrip_witness :
    ∃ d r, tableAB.marshal rowHello = .ok d ∧
      tableAB.unmarshal (some d) = .ok r ∧ r.agree rowHello :=
  marshal_unmarshal_roundtrip tableAB rowHello rowHello_conforms.1 rowHello_conforms.2
    (by decide)

/-- C3, counterexample: the row whose only column `b : TEXT` holds the three
bytes `'a', 0, 'b'` has exactly the schema's columns with a value of the
declared type, and `unmarshal(marshal(row))` is not that row: the text comes
back as `"a"`. -/
theorem roundtrip_fails_on_zero_byte :
    Conforms (HeapTable.new ["b"] [.TEXT]) rowZeroByte ∧
    ¬ ∃ d r, (HeapTable.new ["b"] [.TEXT]).marshal rowZeroByte = .ok d ∧
      (HeapTable.new ["b"] [.TEXT]).unmarshal (some d) = .ok r ∧ r.agree rowZeroByte := by
  refine ⟨⟨⟨⟨_, rfl, by decide⟩, trivial⟩, ?_⟩, ?_⟩
  · intro k hk
    simp [HeapTable.new] at hk
    simp [rowZeroByte, hk]
  · rintro ⟨d, r, hm, hu, ha⟩
    have h1 : (HeapTable.new ["b"] [.TEXT]).marshal rowZeroByte
        = .ok (Dbt.ofBytes [3, 0, 97, 0, 98]) := rfl
    rw [h1] at hm
    cases hm
    have h2 : (HeapTable.new ["b"] [.TEXT]).unmarshal (some (Dbt.ofBytes [3, 0, 97, 0, 98]))
        = .ok (ValueDict.empty.set "b" ⟨.TEXT, 0, [97]⟩) := rfl
    rw [h2] at hu
    cases hu
    have h3 := ha "b"
    simp [ValueDict.set, rowZeroByte, sameEntry, Value.sameAs, Value.ofText] at h3

/-- C4: after the successful `add` of 4091 bytes on a new page,
`num_records = 1` and `end_free = 4`, so `4*(num_records+1) ≤ end_free+1`
is false. -/
theorem add_exact_fit_not_roomy :
    (do let p ← runFresh [.add (List.replicate 4091 0)]
        pure (p.num_records, p.end_free, roomy p))
      = (Except.ok (1, 4, false) : Except Err (Nat × Nat × Bool)) := by
  decide!

/-- C5: record 2 is live (`ids()` is `[1, 2]`) and is deleted (`ids()` is then
`[1]`); a later `add` of 4081 bytes fills the page up to the directory, and
the `add` after it (accepted because `has_room` wraps around) writes its
payload over slot 2: `ids()` contains 2 again. -/
theorem tombstone_comes_back :
    (do let p0 ← runFresh [.add [65, 66], .add [67, 68]]
        let ids0 ← p0.ids
        let p ← p0.del 2
        let ids1 ← p.ids
        let p1 ← run p [.add (List.replicate 4081 7), .add [0, 1, 0, 0]]
        let ids2 ← p1.ids
        pure (ids0, ids1, ids2))
      = (Except.ok ([1, 2], [1], [1, 2, 3, 4]) :
          Except Err (List Nat × List Nat × List Nat)) := by
  decide!

/-- C6: on the page reached by the `add` of 4091 bytes (`num_records = 1`,
`end_free = 4`) the `add` of the empty payload returns id 2, although
`0 ≤ 4 - 4*(1+1)` is false over the integers. -/
theorem add_succeeds_without_room :
    (do let p ← runFresh [.add (List.replicate 4091 0)]
        let (p1, id) ← p.add []
        pure (p.num_records, p.end_free,
              decide ((0 : Int) ≤ (p.end_free : Int) - 4 * ((p.num_records : Int) + 1)),
              id, p1.num_records, p1.end_free))
      = (Except.ok (1, 4, false, 2, 2, 4) :
          Except Err (Nat × Nat × Bool × Nat × Nat × Nat)) := by
  decide!

/-- C7 (as amended): on a table just created, for every sequence of `N` rows
that have exactly the schema's columns with values of the declared types and
no zero byte in a text, and that fit the first block together with their
slots and the header (`4 * (N + 1)` plus the sum of the marshalled sizes is at
most 4096): all inserts return, `select()` then returns exactly the handles
the inserts returned, in the same order, and `project` of the i-th handle
returns the i-th row. -/
theorem append_totality (names : List String) (attrs : List DataType) (rows : List ValueDict)
    (t0 : HeapTable) (hcreate : HeapTable.create names attrs = .ok t0)
    (hconf : ∀ r ∈ rows, Conforms t0 r ∧ NulFree r)
    (hfit : 4 * (rows.length + 1) + (rows.map (fun r => marshalledSize r names attrs)).sum
      ≤ BLOCK_SZ) :
    ∃ t hs, insertAll t0 rows = .ok (t, hs) ∧ t.select = .ok hs ∧ hs.length = rows.length ∧
      ∀ i (h1 : i < hs.length) (h2 : i < rows.length),
        ∃ r, t.project hs[i] = .ok r ∧ r.agree rows[i] := by
  obtain ⟨hn0, ha0, hg0⟩ := create_good names attrs t0 hcreate
  have hsum : totalLen (rows.map (fun r => layout r t0.column_names t0.column_attributes))
      = (rows.map (fun r => marshalledSize r names attrs)).sum := by
    rw [hn0, ha0]
    simp [totalLen, List.map_map, Function.comp_def, layout_length]
  obtain ⟨t, hrun, hn, ha, hg⟩ := insertAll_same_block rows t0 [] [] hg0
    (fun r hr => (hconf r hr).1)
    (by
      rw [hsum]
      simp only [List.length_nil, totalLen, List.map_nil, List.sum_nil]
      omega)
  simp only [List.length_nil, Nat.zero_add, List.nil_append] at hrun hg
  refine ⟨t, _, hrun, ?_, by simp, ?_⟩
  · rw [select_good t _ hg]
    simp [handlesFrom, handlesOfPage]
  · intro i h1 h2
    have hr : rows[i] ∈ rows := List.getElem_mem h2
    have hst : Stored [rows.map (fun r => layout r t0.column_names t0.column_attributes)]
        ((List.range' 1 rows.length).map (fun r => ((1 : Nat), r)))[i]
        (layout rows[i] t.column_names t.column_attributes) := by
      rw [hn, ha]
      refine ⟨rows.map (fun r => layout r t0.column_names t0.column_attributes),
        ?_, ?_, ?_, ?_⟩
      · simp
      · simp [List.getElem_range', h2]
      · simp
      · simp [List.getElem_range']
    exact project_good t _ hg _ rows[i]
      (conforms_of_same_schema t0 t _ hn ha (hconf _ hr).1) (hconf _ hr).2 hst

/-- C7, witness: the row of the test in the source and a second row, inserted
into the table of the test. -/
theorem append_totality_witness :
    ∃ t hs, insertAll tableAB [rowHello, rowEmptyText] = .ok (t, hs) ∧ t.select = .ok hs ∧
      hs.length = [rowHello, rowEmptyText].length ∧
      ∀ i (h1 : i < hs.length) (h2 : i < [rowHello, rowEmptyText].length),
        ∃ r, t.project hs[i] = .ok r ∧ r.agree [rowHello, rowEmptyText][i] :=
  append_totality ["a", "b"] [.INT, .TEXT] [rowHello, rowEmptyText] tableAB rfl
    (by
      intro r hr
      simp only [List.mem_cons, List.mem_singleton, List.not_mem_nil, or_false] at hr
      rcases hr with e | e
      · rw [e]; exact rowHello_conforms
      · rw [e]; exact rowEmptyText_conforms)
    (by decide)

/-- C7, counterexample: on a new table with the one column `b : TEXT`, the
insert of the row whose text is the three bytes `'a', 0, 'b'` returns the
handle `(1, 1)`, `select()` returns that handle, and `project` of it returns
the text `"a"`, not the text inserted. -/
theorem project_after_insert_zero_byte :
    (do let t ← HeapTable.create ["b"] [.TEXT]
        let (t1, h) ← t.insert rowZeroByte
        let hs ← t1.select
        let r ← t1.project h
        pure (h, hs, r "b", rowZeroByte "b"))
      = (Except.ok ((1, 1), [(1, 1)], some ⟨.TEXT, 0, [97]⟩, some ⟨.TEXT, 0, [97, 0, 98]⟩) :
          Except Err (Handle × List Handle × Option Value × Option Value)) := by
  decide

/-- C8: on the table of the test, after the insert of one row, `select()`
returns the handle `(1, 1)` and `select(where)` with the empty `where` throws
`std::out_of_range` (`rIDs->at(1)` on a list of one element). -/
theorem select_where_throws :
    (do let t ← HeapTable.create ["a", "b"] [.INT, .TEXT]
        let (t1, _) ← t.insert rowHello
        let hs ← t1.select
        pure (hs, t1.selectWhere ValueDict.empty))
      = (Except.ok ([(1, 1)], Except.error Err.out_of_range) :
          Except Err (List Handle × Except Err (List Handle))) := by
  decide

/-- C9: with records 1 = "AB" and 2 = "CDE" on a new page, `put(2, "X")`
returns, `get(2)` is "X", and `get(1)` has changed from "AB" to "DE". -/
theorem put_shrink_overwrites_neighbour :
    (do let p ← runFresh [.add [65, 66], .add [67, 68, 69]]
        let before ← getBytes p 1
        let p1 ← p.put 2 [88]
        let r2 ← getBytes p1 2
        let after ← getBytes p1 1
        pure (before, r2, after))
      = (Except.ok (some [65, 66], some [88], some [68, 69]) :
          Except Err (Option Bytes × Option Bytes × Option Bytes)) := by
  decide

/-- C10 (as amended): on every page reached from a new zero-filled page by
calls of `add` that return, each on a page with room for the payload and its
slot, `get(id)` returns `nullptr` for every `id > num_records` whose slot lies
below the payloads (`4*id+3 ≤ end_free`); and on any page `get(id)` returns
`nullptr` for every id whose slot holds `loc == 0` (a tombstone). -/
theorem get_unassigned_absent (p : SlottedPage) (hr : AddReach p) (id : Nat)
    (h1 : p.num_records < id) (h2 : 4 * id + 3 ≤ p.end_free) :
    p.get id = .ok none ∧
      ∀ (q : SlottedPage) (r size : Nat), q.get_header r = .ok (size, 0) → q.get r = .ok none := by
  constructor
  · obtain ⟨ds, hg⟩ := addReach_good p hr
    have hef := hg.ef_eq
    have hB : BLOCK_SZ = 4096 := rfl
    have hz : ∀ j, 4 * id ≤ j → j ≤ 4 * id + 3 → p.block j = 0 :=
      fun j hj1 hj2 => hg.free j (by omega) (by omega)
    unfold SlottedPage.get
    rw [get_header_eq p id (by omega), hz (4 * id) (by omega) (by omega),
      hz (4 * id + 1) (by omega) (by omega), hz (4 * id + 2) (by omega) (by omega),
      hz (4 * id + 3) (by omega) (by omega)]
    rfl
  · intro q r size hq
    unfold SlottedPage.get
    rw [hq]
    rfl

/-- C10, witness: id 5 on the page holding the one record "AB". -/
theorem get_unassigned_absent_witness :
    pageAB.get 5 = .ok none ∧
      ∀ (q : SlottedPage) (r size : Nat), q.get_header r = .ok (size, 0) → q.get r = .ok none :=
  get_unassigned_absent pageAB
    (AddReach.add pageNew pageAB [65, 66] 1 (AddReach.fresh 1 pageNew rfl) (by decide) rfl)
    5 (by decide) (by decide)

/-- C10, counterexample: after `add` of 100 bytes `0xFF` on a new page,
`num_records = 1` and the slot of id 1000 lies inside the page
(`4*1000+3 < 4096`), in the payload; `get(1000)` does not return `nullptr`. -/
theorem get_unassigned_in_payload :
    (do let p ← runFresh [.add (List.replicate 100 255)]
        let r ← p.get 1000
        pure (p.num_records, decide (4 * 1000 + 3 < BLOCK_SZ), r.isSome))
      = (Except.ok (1, true, true) : Except Err (Nat × Bool × Bool)) := by
  decide

/-! # The claims C11 to C20 -/

/-! ## Validation and projection -/

theorem validateFrom_missing (row : ValueDict) : ∀ (cs : List String) (acc : ValueDict),
    (∃ c ∈ cs, row c = none) →
    HeapTable.validateFrom row cs acc = .error .DbRelationError := by
  intro cs
  induction cs with
  | nil => intro acc h; obtain ⟨c, hc, _⟩ := h; simp at hc
  | cons c cs ih =>
    intro acc h
    rw [HeapTable.validateFrom]
    cases hrc : row c with
    | none => rfl
    | some v =>
      obtain ⟨c', hc', hn⟩ := h
      rcases List.mem_cons.mp hc' with e | e
      · rw [e, hrc] at hn; cases hn
      · exact ih _ ⟨c', e, hn⟩

theorem all_present_or_missing (row : ValueDict) (cs : List String) :
    (∀ c ∈ cs, ∃ v, row c = some v) ∨ (∃ c ∈ cs, row c = none) := by
  by_cases h : ∃ c ∈ cs, row c = none
  · exact Or.inr h
  · left
    intro c hc
    cases hrc : row c with
    | none => exact absurd ⟨c, hc, hrc⟩ h
    | some v => exact ⟨v, rfl⟩

/-- C11: `validate` returns iff every declared column is a key of the row;
the row it returns has exactly the declared columns as keys, each with the
value of the input row (columns outside the schema are dropped, values are
not changed); when a declared column is missing it throws `DbRelationError`. -/
theorem validate_spec (t : HeapTable) (row : ValueDict) :
    ((∃ r, t.validate row = .ok r) ↔ ∀ c ∈ t.column_names, ∃ v, row c = some v) ∧
    (∀ r, t.validate row = .ok r →
      ∀ k, (k ∈ t.column_names → ∃ v, r k = some v ∧ row k = some v) ∧
        (k ∉ t.column_names → r k = none)) ∧
    ((∃ c ∈ t.column_names, row c = none) → t.validate row = .error .DbRelationError) := by
  have hmiss : (∃ c ∈ t.column_names, row c = none) →
      t.validate row = .error .DbRelationError :=
    fun h => validateFrom_missing row _ _ h
  refine ⟨⟨?_, ?_⟩, ?_, hmiss⟩
  · rintro ⟨r, hr⟩
    rcases all_present_or_missing row t.column_names with h | h
    · exact h
    · rw [hmiss h] at hr; cases hr
  · intro h
    exact ⟨_, validateFrom_eq row _ _ h⟩
  · intro r hr
    rcases all_present_or_missing row t.column_names with h | h
    · have := validateFrom_eq row t.column_names ValueDict.empty h
      unfold HeapTable.validate at hr
      rw [this] at hr
      cases hr
      intro k
      constructor
      · intro hk
        obtain ⟨v, hv⟩ := h k hk
        exact ⟨v, by simp [hk, hv], hv⟩
      · intro hk
        simp [hk, ValueDict.empty]
    · rw [hmiss h] at hr; cases hr

/-- C11, witness: the table and the row of the test in the source. -/
theorem validate_spec_witness :
    ((∃ r, tableAB.validate rowHello = .ok r) ↔
      ∀ c ∈ tableAB.column_names, ∃ v, rowHello c = some v) ∧
    (∀ r, tableAB.validate rowHello = .ok r →
      ∀ k, (k ∈ tableAB.column_names → ∃ v, r k = some v ∧ rowHello k = some v) ∧
        (k ∉ tableAB.column_names → r k = none)) ∧
    ((∃ c ∈ tableAB.column_names, rowHello c = none) →
      tableAB.validate rowHello = .error .DbRelationError) :=
  validate_spec tableAB rowHello

theorem unmarshalFrom_keys (attrs : List DataType) (bytes : Bytes) :
    ∀ (cs : List String) (col_num offset : Nat) (value : Value) (acc r : ValueDict),
      HeapTable.unmarshalFrom attrs bytes cs col_num offset value acc = .ok r →
      ∀ k, (∃ v, r k = some v) ↔ (k ∈ cs ∨ ∃ v, acc k = some v) := by
  intro cs
  induction cs with
  | nil =>
    intro col_num offset value acc r h k
    simp only [HeapTable.unmarshalFrom, Except.ok.injEq] at h
    subst h
    simp
  | cons c cs ih =>
    intro col_num offset value acc r h k
    have hset : ∀ (w : Value), (∃ v, (acc.set c w) k = some v) ↔ (k = c ∨ ∃ v, acc k = some v) := by
      intro w
      by_cases hkc : k = c
      · simp [ValueDict.set, hkc]
      · simp [ValueDict.set, hkc]
    rw [HeapTable.unmarshalFrom] at h
    cases hget : attrs.get? col_num with
    | none => rw [hget] at h; cases h
    | some ca =>
      rw [hget] at h
      cases ca with
      | INT =>
        simp only at h
        split at h
        · rw [ih _ _ _ _ _ h k, hset]
          simp only [List.mem_cons]
          tauto
        · cases h
      | TEXT =>
        simp only at h
        split at h
        · split at h
          · rw [ih _ _ _ _ _ h k, hset]
            simp only [List.mem_cons]
            tauto
          · cases h
        · cases h
      | BOOLEAN => cases h

/-- The row `unmarshal` returns has exactly the declared columns as keys. -/
theorem unmarshal_keys (t : HeapTable) (d : Option Dbt) (row : ValueDict)
    (h : t.unmarshal d = .ok row) (k : String) :
    (∃ v, row k = some v) ↔ k ∈ t.column_names := by
  unfold HeapTable.unmarshal at h
  cases d with
  | none => cases h
  | some d =>
    rw [unmarshalFrom_keys _ _ _ _ _ _ _ _ h k]
    simp [ValueDict.empty]

/-- C12: on a handle whose page is read, whose record is live and unmarshals
to `row`: with no columns requested `project` returns `row`; with columns
requested it fails iff one of them is not a declared column (then with
`DbRelationError`), and the row it returns has exactly the requested columns
as keys, each with the value `row` has for it. -/
theorem project_spec (t : HeapTable) (handle : Handle) (cols : List String)
    (p : SlottedPage) (d : Dbt) (row : ValueDict)
    (hp : t.file.get handle.1 = .ok p) (hd : p.get handle.2 = .ok (some d))
    (hrow : t.unmarshal (some d) = .ok row) :
    (cols = [] → t.projectCols handle cols = .ok row) ∧
    (cols ≠ [] →
      (((∃ e, t.projectCols handle cols = .error e) ↔ ∃ c ∈ cols, c ∉ t.column_names) ∧
       ((∃ c ∈ cols, c ∉ t.column_names) →
          t.projectCols handle cols = .error .DbRelationError) ∧
       ∀ r, t.projectCols handle cols = .ok r →
        ∀ k, (k ∈ cols → ∃ v, r k = some v ∧ row k = some v) ∧ (k ∉ cols → r k = none))) := by
  have hkeys := unmarshal_keys t (some d) row hrow
  constructor
  · intro hc
    unfold HeapTable.projectCols
    rw [hp]
    simp only [hd, hrow, hc, List.isEmpty_nil, if_true]
  · intro hc
    have hne : cols.isEmpty = false := by
      cases cols with
      | nil => exact absurd rfl hc
      | cons c cs => rfl
    have hproj : t.projectCols handle cols
        = HeapTable.validateFrom row cols ValueDict.empty := by
      unfold HeapTable.projectCols
      rw [hp]
      simp only [hd, hrow, hne, Bool.false_eq_true, if_false, projectFrom_eq_validateFrom]
    have hmissing : (∃ c ∈ cols, c ∉ t.column_names) → ∃ c ∈ cols, row c = none := by
      rintro ⟨c, hc1, hc2⟩
      refine ⟨c, hc1, ?_⟩
      cases hrc : row c with
      | none => rfl
      | some v => exact absurd ((hkeys c).mp ⟨v, hrc⟩) hc2
    have hfail : (∃ c ∈ cols, c ∉ t.column_names) →
        t.projectCols handle cols = .error .DbRelationError := by
      intro h
      rw [hproj]
      exact validateFrom_missing row cols _ (hmissing h)
    rw [hproj] at hfail ⊢
    refine ⟨⟨?_, fun h => ⟨_, hfail h⟩⟩, hfail, ?_⟩
    · rintro ⟨e, he⟩
      rcases all_present_or_missing row cols with h | h
      · rw [validateFrom_eq row cols _ h] at he; cases he
      · obtain ⟨c, hc1, hc2⟩ := h
        refine ⟨c, hc1, fun hin => ?_⟩
        obtain ⟨v, hv⟩ := (hkeys c).mpr hin
        rw [hv] at hc2; cases hc2
    · intro r hr
      rcases all_present_or_missing row cols with h | h
      · rw [validateFrom_eq row cols _ h] at hr
        cases hr
        intro k
        constructor
        · intro hk
          obtain ⟨v, hv⟩ := h k hk
          exact ⟨v, by simp [hk, hv], hv⟩
        · intro hk
          simp [hk, ValueDict.empty]
      · rw [validateFrom_missing row cols _ h] at hr; cases hr

/-- C12, witness: the record of the test in the source, projected on `a`. -/
theorem project_spec_witness :
    (["a"] = [] → tableHello.projectCols (1, 1) ["a"] = .ok rowHelloStored) ∧
    (["a"] ≠ [] →
      (((∃ e, tableHello.projectCols (1, 1) ["a"] = .error e) ↔
          ∃ c ∈ ["a"], c ∉ tableHello.column_names) ∧
       ((∃ c ∈ ["a"], c ∉ tableHello.column_names) →
          tableHello.projectCols (1, 1) ["a"] = .error .DbRelationError) ∧
       ∀ r, tableHello.projectCols (1, 1) ["a"] = .ok r →
        ∀ k, (k ∈ ["a"] → ∃ v, r k = some v ∧ rowHelloStored k = some v) ∧
          (k ∉ ["a"] → r k = none))) :=
  project_spec tableHello (1, 1) ["a"] pageHello dbtHello rowHelloStored rfl rfl rfl

/-! ## The marshalled layout -/

/-- On a row that holds every column of a schema of `INT` and `TEXT` columns
and fits the buffer, the loop of `marshal` appends the layout of the
remaining columns. -/
theorem marshalFrom_present (row : ValueDict) (attrs : List DataType) :
    ∀ (cs : List String) (tys : List DataType) (col_num : Nat) (acc : Bytes),
      attrs.drop col_num = tys → PresentCols row cs tys →
      acc.length + (layout row cs tys).length ≤ BLOCK_SZ →
      HeapTable.marshalFrom row attrs cs col_num acc = .ok (acc ++ layout row cs tys) := by
  intro cs
  induction cs with
  | nil =>
    intro tys col_num acc _ hc _
    cases tys with
    | nil => simp [HeapTable.marshalFrom, layout]
    | cons ty tys => exact absurd hc (by simp [PresentCols])
  | cons c cs ih =>
    intro tys col_num acc hd hc hfit
    cases tys with
    | nil => exact absurd hc (by simp [PresentCols])
    | cons ty tys =>
      obtain ⟨⟨v, hv, hty⟩, hrest⟩ := hc
      obtain ⟨hget, hdrop⟩ := get?_of_drop attrs col_num ty tys hd
      cases ty with
      | INT =>
        have hl : layout row (c :: cs) (DataType.INT :: tys)
            = int32Bytes v.n ++ layout row cs tys := by simp [layout, hv]
        rw [hl] at hfit ⊢
        simp only [List.length_append, int32Bytes_length] at hfit
        have h4 : acc.length + 4 ≤ BLOCK_SZ := by omega
        rw [HeapTable.marshalFrom, hget]
        simp only [hv, h4, if_true]
        rw [ih tys (col_num + 1) (acc ++ int32Bytes v.n) hdrop hrest
          (by simp only [List.length_append, int32Bytes_length]; omega)]
        simp
      | TEXT =>
        have hlen : v.s.length < 65536 := by
          rcases hty with h | h
          · cases h
          · exact h.2
        have hl : layout row (c :: cs) (DataType.TEXT :: tys)
            = u16Bytes v.s.length ++ v.s ++ layout row cs tys := by simp [layout, hv]
        rw [hl] at hfit ⊢
        simp only [List.length_append, u16Bytes_length] at hfit
        have hm1 : v.s.length % 4294967296 = v.s.length := Nat.mod_eq_of_lt (by omega)
        have hm2 : v.s.length % 65536 = v.s.length := Nat.mod_eq_of_lt hlen
        have h4 : acc.length + 2 + v.s.length ≤ BLOCK_SZ := by omega
        rw [HeapTable.marshalFrom, hget]
        simp only [hv, hm1, hm2, h4, if_true, List.take_length]
        rw [ih tys (col_num + 1) (acc ++ u16Bytes v.s.length ++ v.s) hdrop hrest
          (by simp only [List.length_append, u16Bytes_length]; omega)]
        simp
      | BOOLEAN =>
        rcases hty with h | h
        · cases h
        · cases h.1

/-- With a column of a type other than `INT` and `TEXT` among the remaining
columns, the loop of `marshal` does not return. -/
theorem marshalFrom_unsupported (row : ValueDict) (attrs : List DataType) :
    ∀ (cs : List String) (tys : List DataType) (col_num : Nat) (acc bytes : Bytes),
      attrs.drop col_num = tys → cs.length = tys.length →
      (∃ ty ∈ tys, ty ≠ .INT ∧ ty ≠ .TEXT) →
      HeapTable.marshalFrom row attrs cs col_num acc ≠ .ok bytes := by
  intro cs
  induction cs with
  | nil =>
    intro tys col_num acc bytes _ hlen hex
    cases tys with
    | nil => obtain ⟨ty, hty, _⟩ := hex; simp at hty
    | cons ty tys => simp at hlen
  | cons c cs ih =>
    intro tys col_num acc bytes hd hlen hex h
    cases tys with
    | nil => simp at hlen
    | cons ty tys =>
      obtain ⟨hget, hdrop⟩ := get?_of_drop attrs col_num ty tys hd
      have hlen2 : cs.length = tys.length := by simpa using hlen
      rw [HeapTable.marshalFrom, hget] at h
      cases hrc : row c with
      | none => rw [hrc] at h; cases h
      | some v =>
        rw [hrc] at h
        have hrest : ty = .INT ∨ ty = .TEXT → ∃ ty' ∈ tys, ty' ≠ .INT ∧ ty' ≠ .TEXT := by
          intro hty
          obtain ⟨ty', hmem, h1, h2⟩ := hex
          rcases List.mem_cons.mp hmem with e | e
          · subst e
            rcases hty with e | e
            · exact absurd e h1
            · exact absurd e h2
          · exact ⟨ty', e, h1, h2⟩
        cases ty with
        | INT =>
          simp only at h
          split at h
          · exact ih tys _ _ bytes hdrop hlen2 (hrest (Or.inl rfl)) h
          · cases h
        | TEXT =>
          simp only at h
          split at h
          · exact ih tys _ _ bytes hdrop hlen2 (hrest (Or.inr rfl)) h
          · cases h
        | BOOLEAN => cases h

/-- C13 (as amended): for every schema of `INT` and `TEXT` columns and every
row that holds all its columns, with texts shorter than `2^16` bytes, whose
layout is at most 4096 bytes, `marshal` returns exactly the layout: in
declared order, the 4 bytes of the `int32` for an `INT` column and a `u16`
length followed by that many raw bytes for a `TEXT` column, of length 4 per
`INT` column plus 2 + length per `TEXT` column. For every schema (names and
types in parallel) with a column of another type, `marshal` does not return. -/
theorem marshal_layout_spec (t : HeapTable) (row : ValueDict) :
    (PresentCols row t.column_names t.column_attributes →
      marshalledSize row t.column_names t.column_attributes ≤ BLOCK_SZ →
      ∃ d, t.marshal row = .ok d ∧
        d.bytes = layout row t.column_names t.column_attributes ∧
        d.size = marshalledSize row t.column_names t.column_attributes) ∧
    (t.column_names.length = t.column_attributes.length →
      (∃ ty ∈ t.column_attributes, ty ≠ .INT ∧ ty ≠ .TEXT) →
      ∀ d, t.marshal row ≠ .ok d) := by
  constructor
  · intro hp hfit
    rw [← layout_length] at hfit
    have hm := marshalFrom_present row t.column_attributes t.column_names t.column_attributes
      0 [] rfl hp (by simpa using hfit)
    refine ⟨Dbt.ofBytes (layout row t.column_names t.column_attributes), ?_, ?_, ?_⟩
    · simp [HeapTable.marshal, hm]
    · exact Dbt.bytes_ofBytes _
    · rw [← layout_length]; rfl
  · intro hlen hex d h
    unfold HeapTable.marshal at h
    cases hm : HeapTable.marshalFrom row t.column_attributes t.column_names 0 [] with
    | error e => rw [hm] at h; cases h
    | ok bytes =>
      exact marshalFrom_unsupported row t.column_attributes t.column_names
        t.column_attributes 0 [] bytes rfl hlen hex hm

/-- C13, witness: the table and the row of the test in the source; the
marshalled row is `12` as an `int32`, the length `6` and the six bytes of
`"Hello!"`. With the column `b` declared `BOOLEAN` instead, `marshal` of the
same row does not return. -/
theorem marshal_layout_spec_witness :
    (∃ d, tableAB.marshal rowHello = .ok d ∧
      d.bytes = [12, 0, 0, 0, 6, 0, 72, 101, 108, 108, 111, 33] ∧ d.size = 12) ∧
    ∀ d, (HeapTable.new ["a", "b"] [.INT, .BOOLEAN]).marshal rowHello ≠ .ok d :=
  ⟨(marshal_layout_spec tableAB rowHello).1
      ⟨⟨_, rfl, Or.inl rfl⟩, ⟨_, rfl, Or.inr ⟨rfl, by decide⟩⟩, trivial⟩ (by decide),
    (marshal_layout_spec (HeapTable.new ["a", "b"] [.INT, .BOOLEAN]) rowHello).2 rfl
      ⟨.BOOLEAN, by decide, by decide, by decide⟩⟩

/-- C13, counterexample: for the schema `b : TEXT` and the row whose text has
8190 bytes (below `2^16`), `marshal` does not return the 8192 bytes of the
layout: the copy of the text runs 4096 bytes past the end of its `BLOCK_SZ`
buffer. -/
theorem marshal_overflows_buffer :
    PresentCols rowText8190 ["b"] [.TEXT] ∧
    (HeapTable.new ["b"] [.TEXT]).marshal rowText8190 = .error .memoryFault := by
  constructor
  · exact ⟨⟨_, rfl, Or.inr ⟨rfl, by decide!⟩⟩, trivial⟩
  · have h : ((HeapTable.new ["b"] [.TEXT]).marshal rowText8190).toOption.isNone = true
        ∧ (match (HeapTable.new ["b"] [.TEXT]).marshal rowText8190 with
            | .error e => e
            | .ok _ => Err.out_of_range) = Err.memoryFault := by decide!
    cases hm : (HeapTable.new ["b"] [.TEXT]).marshal rowText8190 with
    | ok d => rw [hm] at h; simp [Except.toOption] at h
    | error e => rw [hm] at h; simp at h; rw [h.2]

/-! ## Filling the first block -/

/-- `add` through the page `get_new` returned has no result. -/
theorem stale_add_no_result (q : StalePage) (d : Bytes) (r : StalePage × Nat) :
    q.add d ≠ .ok r := by
  unfold StalePage.add
  split <;> simp

/-- An insert of a conforming row that `has_room` refuses on the last block
does not return: `append` allocates a new block and adds the row through the
page `get_new` returned. -/
theorem insert_no_room (t : HeapTable) (done : List (List Bytes)) (cur : List Bytes)
    (row : ValueDict) (hg : TGood t (done ++ [cur])) (hc : Conforms t row)
    (hne : 4 * (cur.length + 1) + totalLen cur ≤ 4095)
    (hno : 4095 < 4 * (cur.length + 1) + totalLen cur
      + (layout row t.column_names t.column_attributes).length)
    (hfit : (layout row t.column_names t.column_attributes).length ≤ BLOCK_SZ)
    (r : HeapTable × Handle) : t.insert row ≠ .ok r := by
  have hB : BLOCK_SZ = 4096 := rfl
  have hv := validate_conforms t row hc
  have hlast : t.file.last = done.length + 1 := by rw [hg.last_eq]; simp
  have hdl : done.length < (done ++ [cur]).length := by simp
  obtain ⟨p, hp, hpid, hgood⟩ := hg.page done.length hdl
  have hcur : (done ++ [cur])[done.length] = cur := by
    rw [List.getElem_append_right (Nat.le_refl _)]
    simp
  rw [hcur] at hgood
  have hm : t.marshal row
      = .ok (Dbt.ofBytes (layout row t.column_names t.column_attributes)) := by
    have := marshalFrom_layout row t.column_attributes t.column_names t.column_attributes
      0 [] rfl hc.1 (by simp only [List.length_nil]; omega)
    simp [HeapTable.marshal, this]
  have hsz : (layout row t.column_names t.column_attributes).length % 65536
      = (layout row t.column_names t.column_attributes).length := Nat.mod_eq_of_lt (by omega)
  have hroomf : p.has_room
      ((layout row t.column_names t.column_attributes).length % 65536) = false := by
    rw [hsz, has_room_good p cur hgood _ hne, decide_eq_false_iff_not]
    omega
  have hnoroom := add_no_room p _ hroomf
  intro h
  unfold HeapTable.insert HeapTable.append at h
  rw [hv] at h
  simp only [hm, HeapFile.get_last_block_id, hlast, hp, Dbt.bytes_ofBytes, hnoroom] at h
  cases hnew : t.file.get_new with
  | error e => rw [hnew] at h; cases h
  | ok fb =>
    obtain ⟨f1, block1⟩ := fb
    rw [hnew] at h
    simp only at h
    cases hadd : block1.add (layout row t.column_names t.column_attributes) with
    | error e => rw [hadd] at h; cases h
    | ok r2 => exact stale_add_no_result _ _ _ hadd

theorem isText1000_conforms (t : HeapTable) (row : ValueDict) (hn : t.column_names = ["b"])
    (ha : t.column_attributes = [.TEXT]) (h : IsText1000 row) :
    Conforms t row ∧ (layout row t.column_names t.column_attributes).length = 1002 := by
  obtain ⟨⟨v, hv, htag, hlen⟩, hother⟩ := h
  refine ⟨⟨?_, ?_⟩, ?_⟩
  · rw [hn, ha]
    exact ⟨⟨v, hv, htag, by omega⟩, trivial⟩
  · intro k hk
    rw [hn] at hk
    exact hother k (by simpa using hk)
  · rw [hn, ha]
    simp [layout, hv, u16Bytes_length, hlen]

/-- C14 (as amended): on a freshly created table with the single column
`b : TEXT`, the inserts of four rows whose text has 1000 bytes return the
handles `(1, 1)`, `(1, 2)`, `(1, 3)`, `(1, 4)`; afterwards `block_ids()` is
`[1]` and `select()` returns these four handles, all in block 1 (four records
of 1002 bytes, four slots and the header take 4028 bytes). -/
theorem four_rows_stay_in_block_one (t0 : HeapTable) (r1 r2 r3 r4 : ValueDict)
    (hcreate : HeapTable.create ["b"] [.TEXT] = .ok t0)
    (h1 : IsText1000 r1) (h2 : IsText1000 r2) (h3 : IsText1000 r3) (h4 : IsText1000 r4) :
    ∃ t4, insertAll t0 [r1, r2, r3, r4] = .ok (t4, [(1, 1), (1, 2), (1, 3), (1, 4)]) ∧
      t4.file.block_ids = [1] ∧ t4.select = .ok [(1, 1), (1, 2), (1, 3), (1, 4)] := by
  have hB : BLOCK_SZ = 4096 := rfl
  obtain ⟨hn0, ha0, hg0⟩ := create_good _ _ t0 hcreate
  obtain ⟨hc1, hl1⟩ := isText1000_conforms t0 r1 hn0 ha0 h1
  obtain ⟨t1, hi1, hn1, ha1, hg1⟩ := insert_same_block t0 [] [] r1 hg0 hc1
    (by rw [hl1]; simp [totalLen, hB])
  have hN1 := hn1.trans hn0
  have hA1 := ha1.trans ha0
  obtain ⟨hc2, hl2⟩ := isText1000_conforms t1 r2 hN1 hA1 h2
  obtain ⟨t2, hi2, hn2, ha2, hg2⟩ := insert_same_block t1 [] _ r2 hg1 hc2
    (by rw [hl2]; simp [totalLen, hB, hl1])
  have hN2 := hn2.trans hN1
  have hA2 := ha2.trans hA1
  obtain ⟨hc3, hl3⟩ := isText1000_conforms t2 r3 hN2 hA2 h3
  obtain ⟨t3, hi3, hn3, ha3, hg3⟩ := insert_same_block t2 [] _ r3 hg2 hc3
    (by rw [hl3]; simp [totalLen, hB, hl1, hl2])
  have hN3 := hn3.trans hN2
  have hA3 := ha3.trans hA2
  obtain ⟨hc4, hl4⟩ := isText1000_conforms t3 r4 hN3 hA3 h4
  obtain ⟨t4, hi4, _, _, hg4⟩ := insert_same_block t3 [] _ r4 hg3 hc4
    (by rw [hl4]; simp [totalLen, hB, hl1, hl2, hl3])
  simp only [List.length_nil, List.length_cons, List.length_append, List.length_singleton,
    List.nil_append, Nat.zero_add, Nat.reduceAdd] at hi1 hi2 hi3 hi4
  refine ⟨t4, ?_, ?_, ?_⟩
  · simp only [insertAll, hi1, hi2, hi3, hi4]
  · unfold HeapFile.block_ids
    rw [hg4.last_eq]
    rfl
  · rw [select_good t4 _ hg4]
    rfl

theorem rowText1000_isText : IsText1000 rowText1000 := by
  refine ⟨⟨_, rfl, rfl, List.length_replicate 1000 (120 : Byte)⟩, ?_⟩
  intro k hk
  simp [rowText1000, hk]

/-- C14, witness: four times the row whose text is 1000 bytes `'x'`. -/
theorem four_rows_stay_in_block_one_witness :
    ∃ t4, insertAll (tableOf (HeapTable.create ["b"] [.TEXT]))
        [rowText1000, rowText1000, rowText1000, rowText1000]
        = .ok (t4, [(1, 1), (1, 2), (1, 3), (1, 4)]) ∧
      t4.file.block_ids = [1] ∧ t4.select = .ok [(1, 1), (1, 2), (1, 3), (1, 4)] :=
  four_rows_stay_in_block_one (tableOf (HeapTable.create ["b"] [.TEXT]))
    rowText1000 rowText1000 rowText1000 rowText1000 rfl
    rowText1000_isText rowText1000_isText rowText1000_isText rowText1000_isText

/-- C14, counterexample: after the insert of four rows whose text is 1000
bytes `'x'` into the freshly created table, `block_ids()` is `[1]`, not
`[1, 2]`, and the four handles `select()` returns are all in block 1. -/
theorem four_rows_fit_one_block :
    (do let t ← HeapTable.create ["b"] [.TEXT]
        let (t4, hs) ← insertAll t [rowText1000, rowText1000, rowText1000, rowText1000]
        let sel ← t4.select
        pure (t4.file.block_ids, hs, sel))
      = (Except.ok ([1], [(1, 1), (1, 2), (1, 3), (1, 4)], [(1, 1), (1, 2), (1, 3), (1, 4)]) :
          Except Err (List Nat × List Handle × List Handle)) := by
  decide!

/-- The fifth insert of such a row: `has_room` refuses it on block 1, and
`append` adds it through the page `get_new` returned for block 2; the insert
has no result. -/
theorem fifth_insert_no_result :
    (do let t ← HeapTable.create ["b"] [.TEXT]
        let (t4, _) ← insertAll t [rowText1000, rowText1000, rowText1000, rowText1000]
        pure (match t4.insert rowText1000 with
          | .ok _ => none
          | .error e => some e))
      = (Except.ok (some Err.memoryFault) : Except Err (Option Err)) := by
  decide!

/-! ## Deleting on a page filled exactly -/

/-- C15: a new page, `add` of 4091 bytes `9, 0, 0, 0, ...` (accepted, and
copied over bytes 5..7 of slot 1, which then holds `loc = 0`), `add` of the
byte `7` (accepted because `has_room` wraps around, written at offset 4):
`ids()` is `[2]`. `del(2)` returns; its `slide` copies the two bytes at
offsets 4..5 to 5..6, which gives slot 1 the `loc` 9: `ids()` is then `[1]`,
not `[2]` with 2 removed. -/
theorem del_revives_other_id :
    (do let p ← runFresh [.add ([9, 0, 0] ++ List.replicate 4088 0), .add [7]]
        let ids0 ← p.ids
        let p1 ← p.del 2
        let ids1 ← p1.ids
        pure (ids0, ids1))
      = (Except.ok ([2], [1]) : Except Err (List Nat × List Nat)) := by
  decide!

/-- C16: after the successful `add` of the 4091 bytes `0, 1, 0, 0, ...` on a
new page, `end_free = 4` and slot 1, over which the payload was copied, is
live with `size = 251` and `loc = 1`: `loc ≥ end_free + 1` is false. -/
theorem live_slot_below_end_free :
    (do let p ← runFresh [.add ([0, 1, 0] ++ List.replicate 4088 0)]
        let ids ← p.ids
        let (size, loc) ← p.get_header 1
        pure (ids, p.end_free, size, loc, decide (p.end_free + 1 ≤ loc)))
      = (Except.ok ([1], 4, 251, 1, false) :
          Except Err (List Nat × Nat × Nat × Nat × Bool)) := by
  decide!

/-! ## Block allocation -/

/-- C18: a new page, `add` of 4091 bytes `0, 5, 0, 0, ...`, `add` of the byte
`4`: both adds return, `end_free = 3`, record 1 is live with
`(size, loc) = (4, 5)` and record 2 is live with `(1, 4)`, below record 1.
`del(1)` returns, leaves `num_records = 2`, slot 1 `(0, 0)` and
`end_free = 7`, and slot 2 holds `(4, 9)`: its `loc` has grown by 5, not by
the size 4 of record 1. The lists are `num_records, end_free, size and loc of
slot 1, size and loc of slot 2`, before and after `del(1)`. -/
theorem del_shifts_other_slot_wrongly :
    (do let p ← runFresh [.add ([0, 5, 0] ++ List.replicate 4088 0), .add [4]]
        let ids0 ← p.ids
        let (size1, loc1) ← p.get_header 1
        let (size2, loc2) ← p.get_header 2
        let p1 ← p.del 1
        let (size1a, loc1a) ← p1.get_header 1
        let (size2a, loc2a) ← p1.get_header 2
        pure (ids0, [p.num_records, p.end_free, size1, loc1, size2, loc2],
              [p1.num_records, p1.end_free, size1a, loc1a, size2a, loc2a]))
      = (Except.ok ([1, 2], [2, 3, 4, 5, 1, 4], [2, 7, 0, 0, 4, 9]) :
          Except Err (List Nat × List Nat × List Nat)) := by
  decide!

/-- C19: a new page, `add` of 4091 zero bytes, `add` of the four bytes
`9, 9, 9, 9` (accepted because `has_room` wraps around; copied to offsets
1..4, after the header was written): the page has `num_records = 2` and
`end_free = 0`, and the page constructed with `is_new = false` over its
buffer has `num_records = 2306` and `end_free = 2313`. -/
theorem header_overwritten_by_payload :
    (do let p ← runFresh [.add (List.replicate 4091 0), .add [9, 9, 9, 9]]
        let q ← SlottedPage.mkExisting p.block p.block_id
        pure (p.num_records, p.end_free, q.num_records, q.end_free))
      = (Except.ok (2, 0, 2306, 2313) : Except Err (Nat × Nat × Nat × Nat)) := by
  decide!

/-! ## `select(where)` as written -/

/-- The ids `ids()` collects from `id` on are increasing: the one at position
`i` is at least `id + i`. -/
theorem idsFrom_lower (p : SlottedPage) : ∀ (k id : Nat) (l : List Nat),
    SlottedPage.idsFrom p id k = .ok l → ∀ i (hi : i < l.length), id + i ≤ l[i] := by
  intro k
  induction k with
  | zero =>
    intro id l h i hi
    simp only [SlottedPage.idsFrom, Except.ok.injEq] at h
    subst h
    simp at hi
  | succ k ih =>
    intro id l h i hi
    rw [SlottedPage.idsFrom] at h
    cases hh : p.get_header id with
    | error e => rw [hh] at h; cases h
    | ok sl =>
      obtain ⟨size, loc⟩ := sl
      rw [hh] at h
      simp only at h
      cases hr : SlottedPage.idsFrom p (id + 1) k with
      | error e => rw [hr] at h; cases h
      | ok rest =>
        rw [hr] at h
        simp only [Except.ok.injEq] at h
        have ihr := ih (id + 1) rest hr
        by_cases hloc : loc = 0
        · simp only [hloc, ne_eq, not_true_eq_false, if_false] at h
          subst h
          have := ihr i hi
          omega
        · simp only [hloc, ne_eq, not_false_eq_true, if_true] at h
          subst h
          cases i with
          | zero => simp
          | succ i =>
            have := ihr i (by simpa using hi)
            simp only [List.getElem_cons_succ]
            omega

/-- The last id of a non-empty `ids()` is not a position of the list. -/
theorem ids_last_not_index (p : SlottedPage) (l : List Nat) (h : p.ids = .ok l)
    (hne : l ≠ []) : ∃ r ∈ l, l.get? r = none := by
  have hpos : 0 < l.length := List.length_pos.mpr hne
  have hi : l.length - 1 < l.length := by omega
  have hlow := idsFrom_lower p _ _ l h (l.length - 1) hi
  refine ⟨l[l.length - 1], List.getElem_mem hi, ?_⟩
  rw [List.get?_eq_none]
  omega

theorem selectWhereIds_throws (bID : Nat) (rIDs : List Nat) : ∀ (l : List Nat),
    (∃ r ∈ l, rIDs.get? r = none) →
    HeapTable.selectWhereIds bID rIDs l = .error .out_of_range := by
  intro l
  induction l with
  | nil => rintro ⟨r, hr, _⟩; simp at hr
  | cons a l ih =>
    rintro ⟨r, hr, hnone⟩
    rw [HeapTable.selectWhereIds]
    cases ha : rIDs.get? a with
    | none => rfl
    | some x =>
      rcases List.mem_cons.mp hr with e | e
      · rw [e, ha] at hnone; cases hnone
      · simp only [ih ⟨r, e, hnone⟩]

/-- The loop of `select(where)` over blocks that are all read: it returns the
empty list when no block has a live record and throws `std::out_of_range`
when one has. -/
theorem selectWhereFrom_spec (t : HeapTable) : ∀ (bs : List Nat),
    (∀ b ∈ bs, ∃ p l, t.file.get b = .ok p ∧ p.ids = .ok l) →
    ((∀ b ∈ bs, ∀ p l, t.file.get b = .ok p → p.ids = .ok l → l = []) →
      HeapTable.selectWhereFrom t bs = .ok []) ∧
    ((∃ b ∈ bs, ∃ p l, t.file.get b = .ok p ∧ p.ids = .ok l ∧ l ≠ []) →
      HeapTable.selectWhereFrom t bs = .error .out_of_range) := by
  intro bs
  induction bs with
  | nil =>
    intro _
    exact ⟨fun _ => rfl, by rintro ⟨b, hb, _⟩; simp at hb⟩
  | cons b bs ih =>
    intro hread
    obtain ⟨p, l, hp, hl⟩ := hread b (by simp)
    obtain ⟨ih1, ih2⟩ := ih (fun b' hb' => hread b' (by simp [hb']))
    constructor
    · intro hall
      have hnil : l = [] := hall b (by simp) p l hp hl
      subst hnil
      rw [HeapTable.selectWhereFrom, hp]
      simp only [hl, HeapTable.selectWhereIds,
        ih1 (fun b' hb' => hall b' (by simp [hb'])), List.append_nil]
    · rintro ⟨b', hb', p', l', hp', hl', hne'⟩
      rw [HeapTable.selectWhereFrom, hp]
      simp only [hl]
      by_cases hnil : l = []
      · subst hnil
        have hrest : ∃ b ∈ bs, ∃ p l, t.file.get b = .ok p ∧ p.ids = .ok l ∧ l ≠ [] := by
          rcases List.mem_cons.mp hb' with e | e
          · subst e
            rw [hp] at hp'
            cases hp'
            rw [hl] at hl'
            cases hl'
            exact absurd rfl hne'
          · exact ⟨b', e, p', l', hp', hl', hne'⟩
        simp only [HeapTable.selectWhereIds, ih2 hrest]
      · simp only [selectWhereIds_throws b l l (ids_last_not_index p l hl hnil)]

/-- C20: on a table all of whose blocks `1 .. last` are read, for every
`where`: `select(where)` returns iff no block has a live record, and then it
returns the empty list; whenever some block has a live record it throws
`std::out_of_range`, since the last id of `ids()` is not a position of the
list. The argument `where` plays no part. -/
theorem select_where_spec (t : HeapTable) (w : ValueDict) (hread : BlocksReadable t) :
    ((∃ hs, t.selectWhere w = .ok hs) ↔ ¬ HasLiveRecord t) ∧
    (∀ hs, t.selectWhere w = .ok hs → hs = []) ∧
    (HasLiveRecord t → t.selectWhere w = .error .out_of_range) := by
  obtain ⟨h1, h2⟩ := selectWhereFrom_spec t t.file.block_ids hread
  have hnone : ¬ HasLiveRecord t → t.selectWhere w = .ok [] := by
    intro hno
    apply h1
    intro b hb p l hp hl
    by_contra hne
    exact hno ⟨b, hb, p, l, hp, hl, hne⟩
  have hsome : HasLiveRecord t → t.selectWhere w = .error .out_of_range := h2
  refine ⟨⟨?_, fun hno => ⟨[], hnone hno⟩⟩, ?_, hsome⟩
  · rintro ⟨hs, hok⟩ hlive
    rw [hsome hlive] at hok
    cases hok
  · intro hs hok
    by_cases hlive : HasLiveRecord t
    · rw [hsome hlive] at hok; cases hok
    · rw [hnone hlive] at hok
      cases hok
      rfl

theorem tableHello_readable : BlocksReadable tableHello := by
  intro b hb
  have hb1 : b = 1 := by
    have : tableHello.file.block_ids = [1] := rfl
    rw [this] at hb
    simpa using hb
  subst hb1
  exact ⟨pageHello, [1], rfl, rfl⟩

/-- C20, witness: the table of the test after the insert of one row, with the
row as `where`: `select(where)` does not return, it throws. -/
theorem select_where_spec_witness :
    ((∃ hs, tableHello.selectWhere rowHello = .ok hs) ↔ ¬ HasLiveRecord tableHello) ∧
    (∀ hs, tableHello.selectWhere rowHello = .ok hs → hs = []) ∧
    (HasLiveRecord tableHello → tableHello.selectWhere rowHello = .error .out_of_range) :=
  select_where_spec tableHello rowHello tableHello_readable

end HeapStorage
